import Mathlib

/-!
Verification of the sokoban pure-logic engine core.

This development shallowly embeds the engine's data model and operations:
tile indices are integers with the sentinel `-1` for "no tile" (as in the
source), bitboards are natural numbers whose bit `i` records box occupancy
of tile index `i` (the source uses Python's arbitrary-precision integers,
which are non-negative for every bitboard the engine builds), and Python's
`a & ~b` on such masks is embedded as `andNot a b` below.  Loops that pop the
lowest set bit (`remaining & -remaining` / `remaining &= remaining - 1`)
become well-founded recursions on the numeric value of the bitboard, and
the two flood-fill `while` loops of the reachability engine are run with a
fuel bound that provably suffices to reach their fixed points.
-/

namespace Sokoban

/-- Movement directions, mirroring the `Direction` IntEnum (UP=0, DOWN=1,
LEFT=2, RIGHT=3). -/
inductive Direction where
  | UP
  | DOWN
  | LEFT
  | RIGHT
deriving DecidableEq, Repr

/-- Numeric value of a direction, as in the IntEnum. -/
def dirVal : Direction → Nat
  | .UP => 0
  | .DOWN => 1
  | .LEFT => 2
  | .RIGHT => 3

/-- Iteration order of `for d in Direction` (enum order). -/
def dirList : List Direction := [.UP, .DOWN, .LEFT, .RIGHT]

/-- Embeds `opposite_direction` from `core/direction.py`. -/
def opposite_direction : Direction → Direction
  | .UP => .DOWN
  | .DOWN => .UP
  | .LEFT => .RIGHT
  | .RIGHT => .LEFT

/-- Embeds the `MoveResult` IntEnum from `core/types.py`. -/
inductive MoveResult where
  | SUCCESS_WALK
  | SUCCESS_PUSH
  | BLOCKED_WALL
  | BLOCKED_BOX
  | WIN
deriving DecidableEq, Repr

/-- Tile index: a non-negative integer for a passable tile, `-1` for the
"no tile" sentinel, as in `core/types.py`. -/
abbrev TileIndex := Int

/-- Bitboard: bit `i` set means a box occupies tile index `i`. -/
abbrev Bitboard := Nat

/-! ### BitboardOps (`state/bitboard.py`) -/

/-- Embeds `BitboardOps.has_box`: `bool(bitboard & (1 << tile_index))`. -/
def has_box (bitboard : Bitboard) (tile_index : TileIndex) : Bool :=
  bitboard &&& (1 <<< tile_index.toNat) != 0

/-- Embeds `BitboardOps.set_box`: `bitboard | (1 << tile_index)`. -/
def set_box (bitboard : Bitboard) (tile_index : TileIndex) : Bitboard :=
  bitboard ||| (1 <<< tile_index.toNat)

/-- Embeds Python's `a & ~b` on the engine's (non-negative) bitboard
integers: clear in `a` every bit set in `b`.  Written as `a ^^^ (a &&& b)`,
which computes the same function bit for bit and is kernel-computable. -/
def andNot (a b : Bitboard) : Bitboard := a ^^^ (a &&& b)

/-- Embeds `BitboardOps.clear_box`: `bitboard & ~(1 << tile_index)`. -/
def clear_box (bitboard : Bitboard) (tile_index : TileIndex) : Bitboard :=
  andNot bitboard (1 <<< tile_index.toNat)

/-- Embeds `BitboardOps.move_box`:
`(bitboard & ~(1 << from_index)) | (1 << to_index)`. -/
def move_box (bitboard : Bitboard) (from_index to_index : TileIndex) : Bitboard :=
  andNot bitboard (1 <<< from_index.toNat) ||| (1 <<< to_index.toNat)

/-- Embeds `BitboardOps.all_boxes_on_goals`:
`(box_bitboard & goal_mask) == box_bitboard`. -/
def all_boxes_on_goals (box_bitboard goal_mask : Bitboard) : Bool :=
  box_bitboard &&& goal_mask == box_bitboard

/-- Embeds `BitboardOps.from_indices`: fold of `bitboard |= 1 << idx`. -/
def from_indices (indices : List TileIndex) : Bitboard :=
  indices.foldl (fun bitboard idx => bitboard ||| (1 <<< idx.toNat)) 0

/-! ### StaticMap (`board/static_map.py`)

Only the fields the claims exercise are embedded: the per-tile neighbor
table, the floor and goal masks and the floor-tile count.  The neighbor
table is the source's tuple-of-4-tuples `(up, down, left, right)`; missing
entries read as the sentinel quadruple, mirroring that the source only ever
indexes the table with a valid tile index. -/

structure StaticMap where
  width : Nat
  height : Nat
  numFloorTiles : Nat
  floorMask : Bitboard
  goalMask : Bitboard
  neighbors : List (TileIndex × TileIndex × TileIndex × TileIndex)
deriving DecidableEq, Repr

/-- Selects the component of a neighbor quadruple for a direction; the
source indexes the `(up, down, left, right)` tuple with the IntEnum value. -/
def nbrEntry : TileIndex × TileIndex × TileIndex × TileIndex → Direction → TileIndex
  | (u, _, _, _), .UP => u
  | (_, d, _, _), .DOWN => d
  | (_, _, l, _), .LEFT => l
  | (_, _, _, r), .RIGHT => r

/-- Embeds `StaticMap.get_neighbor`: `self.neighbors[tile_index][direction]`. -/
def getNeighbor (sm : StaticMap) (tile_index : TileIndex) (d : Direction) : TileIndex :=
  nbrEntry (sm.neighbors.getD tile_index.toNat (-1, -1, -1, -1)) d

/-- Well-formedness facts that hold for every `StaticMap` built by
`StaticMap.from_parsed_level` from a parsed grid: the neighbor table has one
quadruple per floor tile, the floor mask is the low `numFloorTiles` bits
(`_build_floor_mask`), and each neighbor entry is either the sentinel or a
distinct valid tile index whose reverse neighbor (opposite direction) points
back (grid adjacency is symmetric and row-major indexing is injective). -/
def WellFormed (sm : StaticMap) : Prop :=
  sm.neighbors.length = sm.numFloorTiles ∧
  sm.floorMask = 2 ^ sm.numFloorTiles - 1 ∧
  ∀ i < sm.numFloorTiles, ∀ d ∈ dirList,
    getNeighbor sm (i : Int) d = -1 ∨
      (0 ≤ getNeighbor sm (i : Int) d ∧
       (getNeighbor sm (i : Int) d).toNat < sm.numFloorTiles ∧
       getNeighbor sm (i : Int) d ≠ (i : Int) ∧
       getNeighbor sm (getNeighbor sm (i : Int) d) (opposite_direction d) = (i : Int))

instance (sm : StaticMap) : Decidable (WellFormed sm) := by
  unfold WellFormed; infer_instance

/-! ### GameState (`state/game_state.py`) -/

structure GameState where
  player_index : TileIndex
  box_indices : List TileIndex
  box_bitboard : Bitboard
deriving DecidableEq, Repr

/-- Embeds `GameState.copy` (box indices are immutable, so a copy has the
same field values). -/
def GameState.copy (s : GameState) : GameState :=
  { player_index := s.player_index
    box_indices := s.box_indices
    box_bitboard := s.box_bitboard }

/-- Embeds the canonical basis of `GameState.__hash__` / `__eq__`:
Python hashes the pair `(player_index, box_indices)`. -/
def stateKey (s : GameState) : TileIndex × List TileIndex :=
  (s.player_index, s.box_indices)

/-- Embeds Python's `sorted` on tile indices (ascending).  Insertion sort
is used because it is structurally recursive, hence kernel-reducible; on
integer keys it agrees with any correct sort. -/
def sortIdx (l : List TileIndex) : List TileIndex :=
  l.insertionSort (· ≤ ·)

/-- Embeds `GameState.from_positions`: sort the box indices, then build the
bitboard mirror with `BitboardOps.from_indices`. -/
def from_positions (player_index : TileIndex) (box_indices : List TileIndex) : GameState :=
  let sorted_boxes := sortIdx box_indices
  { player_index := player_index
    box_indices := sorted_boxes
    box_bitboard := from_indices sorted_boxes }

/-- Embeds `_update_box_indices`: drop the entries equal to `from_idx`,
append `to_idx`, re-sort. -/
def update_box_indices (box_indices : List TileIndex) (from_idx to_idx : TileIndex) :
    List TileIndex :=
  sortIdx (box_indices.filter (fun idx => idx ≠ from_idx) ++ [to_idx])

/-- Embeds `GameState.with_move`.  The source's two optional arguments are
either both `None` (walk) or both tile indices (push); call sites never mix
them, so the push branch reads its target with a default that is never
exercised. -/
def GameState.with_move (s : GameState) (new_player_index : TileIndex)
    (pushed_box_from pushed_box_to : Option TileIndex) : GameState :=
  match pushed_box_from with
  | none =>
      { player_index := new_player_index
        box_indices := s.box_indices
        box_bitboard := s.box_bitboard }
  | some from_idx =>
      let to_idx := pushed_box_to.getD 0
      { player_index := new_player_index
        box_indices := update_box_indices s.box_indices from_idx to_idx
        box_bitboard := move_box s.box_bitboard from_idx to_idx }

/-- Embeds `GameState.is_solved`. -/
def GameState.is_solved (s : GameState) (goal_mask : Bitboard) : Bool :=
  all_boxes_on_goals s.box_bitboard goal_mask

/-! ### Move application (`logic/move.py`) -/

/-- Embeds `_apply_push`. -/
def apply_push (static_map : StaticMap) (state : GameState) (direction : Direction)
    (box_idx : TileIndex) : Option GameState × MoveResult :=
  let beyond_idx := getNeighbor static_map box_idx direction
  if beyond_idx = -1 then (none, .BLOCKED_BOX)
  else if has_box state.box_bitboard beyond_idx then (none, .BLOCKED_BOX)
  else
    let new_state := state.with_move box_idx (some box_idx) (some beyond_idx)
    if new_state.is_solved static_map.goalMask then (some new_state, .WIN)
    else (some new_state, .SUCCESS_PUSH)

/-- Embeds `apply_move`. -/
def apply_move (static_map : StaticMap) (state : GameState) (direction : Direction) :
    Option GameState × MoveResult :=
  let adjacent_idx := getNeighbor static_map state.player_index direction
  if adjacent_idx = -1 then (none, .BLOCKED_WALL)
  else if has_box state.box_bitboard adjacent_idx then
    apply_push static_map state direction adjacent_idx
  else (some (state.with_move adjacent_idx none none), .SUCCESS_WALK)

/-- Embeds `can_move`. -/
def can_move (static_map : StaticMap) (state : GameState) (direction : Direction) : Bool :=
  let adjacent_idx := getNeighbor static_map state.player_index direction
  if adjacent_idx = -1 then false
  else if !has_box state.box_bitboard adjacent_idx then true
  else
    let beyond_idx := getNeighbor static_map adjacent_idx direction
    if beyond_idx = -1 then false
    else !has_box state.box_bitboard beyond_idx

/-- Embeds `get_legal_move_directions`:
`[d for d in Direction if can_move(static_map, state, d)]`. -/
def get_legal_move_directions (static_map : StaticMap) (state : GameState) :
    List Direction :=
  dirList.filter (fun d => can_move static_map state d)

/-! ### Reachability (`logic/reachability.py`)

The source iterates over the set bits of a bitboard by repeatedly taking
`(remaining & -remaining).bit_length() - 1` and clearing the lowest bit
with `remaining &= remaining - 1`.  On Python's two's-complement integers
`n & -n = n & (n ^ (n - 1))`, and `m.bit_length() - 1 = Nat.log2 m` for
`m > 0`, which gives the embeddings below.  The loops recurse on the
numeric value of `remaining`, which strictly decreases. -/

/-- Index of the lowest set bit: embeds `(n & -n).bit_length() - 1`. -/
def lowBitIdx (n : Nat) : Nat := Nat.log2 (n &&& (n ^^^ (n - 1)))

/-- Embeds `remaining &= remaining - 1` (clear the lowest set bit). -/
def popLow (n : Nat) : Nat := n &&& (n - 1)

/-- Body of the `for direction in Direction` loop of `_expand_reachable`:
add the neighbor's bit when it exists and is passable. -/
def addPassableNbr (sm : StaticMap) (passable_mask : Bitboard) (tile_idx : Nat)
    (expanded : Bitboard) (d : Direction) : Bitboard :=
  let neighbor_idx := getNeighbor sm (tile_idx : Int) d
  if neighbor_idx ≠ -1 ∧ passable_mask &&& (1 <<< neighbor_idx.toNat) ≠ 0 then
    expanded ||| (1 <<< neighbor_idx.toNat)
  else expanded

/-- The `while remaining` loop of `_expand_reachable`. -/
def expandLoop (sm : StaticMap) (passable_mask : Bitboard) (remaining expanded : Bitboard) :
    Bitboard :=
  if h : remaining = 0 then expanded
  else
    expandLoop sm passable_mask (popLow remaining)
      (dirList.foldl (addPassableNbr sm passable_mask (lowBitIdx remaining)) expanded)
termination_by remaining
decreasing_by
  exact Nat.lt_of_le_of_lt Nat.and_le_right (Nat.sub_lt (Nat.pos_of_ne_zero h) Nat.one_pos)

/-- Embeds `_expand_reachable`. -/
def expand_reachable (reachable : Bitboard) (sm : StaticMap) (passable_mask : Bitboard) :
    Bitboard :=
  expandLoop sm passable_mask reachable reachable

/-- The `while True` fixed-point loop of `compute_reachability`, run on
explicit fuel; `reachFuel` below always suffices to reach the fixed point,
so with that fuel this equals the source's unbounded loop. -/
def reachLoop (sm : StaticMap) (passable_mask : Bitboard) :
    Nat → Bitboard → Bitboard
  | 0, reachable => reachable
  | fuel + 1, reachable =>
    let expanded := expand_reachable reachable sm passable_mask
    if expanded = reachable then reachable
    else reachLoop sm passable_mask fuel expanded

/-- Fuel that provably reaches the flood-fill fixed point: the loop state
grows strictly inside `seed ||| passable` until it stabilises. -/
def reachFuel (seed passable_mask : Bitboard) : Nat := (seed ||| passable_mask) + 1

/-- Embeds `compute_reachability`. -/
def compute_reachability (sm : StaticMap) (player_index : TileIndex)
    (box_bitboard : Bitboard) : Bitboard :=
  let reachable : Bitboard := 1 <<< player_index.toNat
  let passable_mask := andNot sm.floorMask box_bitboard
  reachLoop sm passable_mask (reachFuel reachable passable_mask) reachable

/-- Per-direction legality test inside `get_legal_pushes`: the player must
reach the tile opposite the push direction, and the destination beyond the
box must exist and hold no box. -/
def push_ok (sm : StaticMap) (box_bitboard reachable : Bitboard) (box_idx : Nat)
    (d : Direction) : Bool :=
  let push_from_idx := getNeighbor sm (box_idx : Int) (opposite_direction d)
  if push_from_idx = -1 then false
  else if reachable &&& (1 <<< push_from_idx.toNat) == 0 then false
  else
    let push_to_idx := getNeighbor sm (box_idx : Int) d
    if push_to_idx = -1 then false
    else box_bitboard &&& (1 <<< push_to_idx.toNat) == 0

/-- The box-enumeration loop of `get_legal_pushes`: boxes are visited from
the lowest set bit upwards, directions in enum order. -/
def pushLoop (sm : StaticMap) (box_bitboard reachable : Bitboard) (remaining : Bitboard) :
    List (TileIndex × Direction) :=
  if h : remaining = 0 then []
  else
    let box_idx := lowBitIdx remaining
    ((dirList.filter (push_ok sm box_bitboard reachable box_idx)).map
        (fun d => ((box_idx : Int), d)))
      ++ pushLoop sm box_bitboard reachable (popLow remaining)
termination_by remaining
decreasing_by
  exact Nat.lt_of_le_of_lt Nat.and_le_right (Nat.sub_lt (Nat.pos_of_ne_zero h) Nat.one_pos)

/-- Embeds `get_legal_pushes`. -/
def get_legal_pushes (sm : StaticMap) (player_index : TileIndex)
    (box_bitboard : Bitboard) : List (TileIndex × Direction) :=
  let reachable := compute_reachability sm player_index box_bitboard
  pushLoop sm box_bitboard reachable box_bitboard

/-- Body of the `for direction in Direction` loop of
`compute_reachability_fast`: a passable, not-yet-reachable neighbor joins
both the reachable set and the new frontier. -/
def fastDirStep (sm : StaticMap) (passable_mask : Bitboard) (tile_idx : Nat)
    (acc : Bitboard × Bitboard) (d : Direction) : Bitboard × Bitboard :=
  let neighbor_idx := getNeighbor sm (tile_idx : Int) d
  if neighbor_idx = -1 then acc
  else
    let neighbor_bit := 1 <<< neighbor_idx.toNat
    if passable_mask &&& neighbor_bit ≠ 0 ∧ acc.1 &&& neighbor_bit = 0 then
      (acc.1 ||| neighbor_bit, acc.2 ||| neighbor_bit)
    else acc

/-- The inner `while remaining` loop of `compute_reachability_fast`,
processing every tile of the current frontier. -/
def fastInner (sm : StaticMap) (passable_mask : Bitboard) (remaining : Bitboard)
    (acc : Bitboard × Bitboard) : Bitboard × Bitboard :=
  if h : remaining = 0 then acc
  else
    fastInner sm passable_mask (popLow remaining)
      (dirList.foldl (fastDirStep sm passable_mask (lowBitIdx remaining)) acc)
termination_by remaining
decreasing_by
  exact Nat.lt_of_le_of_lt Nat.and_le_right (Nat.sub_lt (Nat.pos_of_ne_zero h) Nat.one_pos)

/-- The outer `while frontier` loop of `compute_reachability_fast`, on
fuel; as for `reachLoop`, `reachFuel` always suffices. -/
def fastLoop (sm : StaticMap) (passable_mask : Bitboard) :
    Nat → Bitboard → Bitboard → Bitboard
  | _, reachable, 0 => reachable
  | 0, reachable, _ + 1 => reachable
  | fuel + 1, reachable, frontier + 1 =>
    let p := fastInner sm passable_mask (frontier + 1) (reachable, 0)
    fastLoop sm passable_mask fuel p.1 p.2

/-- Embeds `compute_reachability_fast`. -/
def compute_reachability_fast (sm : StaticMap) (player_index : TileIndex)
    (box_bitboard : Bitboard) : Bitboard :=
  let reachable : Bitboard := 1 <<< player_index.toNat
  let frontier := reachable
  let passable_mask := andNot sm.floorMask box_bitboard
  fastLoop sm passable_mask (reachFuel reachable passable_mask) reachable frontier

/-! ### History (`history/move_record.py`, `history/undo_stack.py`) -/

/-- Embeds `MoveRecord`: a direction plus a push flag. -/
structure MoveRecord where
  direction : Direction
  was_push : Bool
deriving DecidableEq, Repr

/-- Embeds `invert_move`: reconstruct the pre-move state from the post-move
state and the record. -/
def invert_move (static_map : StaticMap) (state : GameState) (record : MoveRecord) :
    GameState :=
  let opposite := opposite_direction record.direction
  let prev_player_idx := getNeighbor static_map state.player_index opposite
  if !record.was_push then
    { player_index := prev_player_idx
      box_indices := state.box_indices
      box_bitboard := state.box_bitboard }
  else
    let box_current_idx := getNeighbor static_map state.player_index record.direction
    let box_prev_idx := state.player_index
    state.with_move prev_player_idx (some box_current_idx) (some box_prev_idx)

/-- Embeds `replay_move`: recompute the post-move state from the pre-move
state and the record. -/
def replay_move (static_map : StaticMap) (state : GameState) (record : MoveRecord) :
    GameState :=
  let new_player_idx := getNeighbor static_map state.player_index record.direction
  if !record.was_push then state.with_move new_player_idx none none
  else
    let box_from_idx := new_player_idx
    let box_to_idx := getNeighbor static_map new_player_idx record.direction
    state.with_move new_player_idx (some box_from_idx) (some box_to_idx)

/-- Embeds `UndoStack`: two stacks of move records plus a push counter. -/
structure UndoStack where
  history : List MoveRecord
  redo_stack : List MoveRecord
  push_count : Nat
deriving DecidableEq, Repr

/-- Embeds `UndoStack.__init__`. -/
def UndoStack.freshEmpty : UndoStack :=
  { history := [], redo_stack := [], push_count := 0 }

/-- Embeds the `can_undo` property. -/
def UndoStack.can_undo (u : UndoStack) : Bool := u.history.length > 0

/-- Embeds the `can_redo` property. -/
def UndoStack.can_redo (u : UndoStack) : Bool := u.redo_stack.length > 0

/-- Embeds the `move_count` property. -/
def UndoStack.move_count (u : UndoStack) : Nat := u.history.length

/-! ### Zobrist hashing (`state/zobrist.py`)

The key tables are generated once per level from a seeded Mersenne-Twister
stream; the claims quantify over an arbitrary hasher, so the tables are
plain lists here and the generator is not embedded. -/

structure ZobristHasher where
  player_keys : List Nat
  box_keys : List Nat
deriving DecidableEq, Repr

/-- Embeds `ZobristHasher.hash_state`: XOR of the player's key with every
occupied box's key. -/
def hash_state (z : ZobristHasher) (player_index : TileIndex)
    (box_indices : List TileIndex) : Nat :=
  box_indices.foldl (fun h b => h ^^^ z.box_keys.getD b.toNat 0)
    (z.player_keys.getD player_index.toNat 0)

/-- Embeds `ZobristHasher.update_walk`. -/
def update_walk (z : ZobristHasher) (current_hash : Nat)
    (old_player new_player : TileIndex) : Nat :=
  current_hash ^^^ z.player_keys.getD old_player.toNat 0
    ^^^ z.player_keys.getD new_player.toNat 0

/-- Embeds `ZobristHasher.update_push`. -/
def update_push (z : ZobristHasher) (current_hash : Nat)
    (old_player new_player box_from box_to : TileIndex) : Nat :=
  current_hash ^^^ z.player_keys.getD old_player.toNat 0
    ^^^ z.player_keys.getD new_player.toNat 0
    ^^^ z.box_keys.getD box_from.toNat 0
    ^^^ z.box_keys.getD box_to.toNat 0

/-! ### Game facade (`engine/game.py`)

The sections of the facade the claims exercise: the owned static map,
initial-state snapshot, current state and history stack.  `Game.__init__`
in the source stores exactly these (plus the parsed level); it creates no
Zobrist hasher field. -/

structure Game where
  static_map : StaticMap
  initial_state : GameState
  state : GameState
  history : UndoStack
deriving DecidableEq, Repr

/-- Embeds `Game.clone`: share the static map and initial state, copy the
current state, start a fresh empty history. -/
def Game.clone (g : Game) : Game :=
  { static_map := g.static_map
    initial_state := g.initial_state
    state := g.state.copy
    history := UndoStack.freshEmpty }

/-! ### Validity predicates and a concrete level

`ValidState` collects the state invariant of §3 of the design: canonical
strictly ascending box list, the bitboard as its mirror, the player off the
boxes, and everything inside the floor mask.  It is stated in a decidable
form (the bitboard equals `from_indices` of the list); the claim-facing
"set bits are exactly the elements" reading is derived as a lemma. -/

def ValidState (sm : StaticMap) (s : GameState) : Prop :=
  s.box_indices.Pairwise (· < ·) ∧
  s.box_bitboard = from_indices s.box_indices ∧
  s.player_index ∉ s.box_indices ∧
  0 ≤ s.player_index ∧
  Nat.testBit sm.floorMask s.player_index.toNat = true ∧
  ∀ b ∈ s.box_indices, 0 ≤ b ∧ Nat.testBit sm.floorMask b.toNat = true

instance (sm : StaticMap) (s : GameState) : Decidable (ValidState sm s) := by
  unfold ValidState; infer_instance

/-- The static map of the corridor level `##### / #@$.# / #####`: three
floor tiles in a row, indices 0 (player start), 1 (box) and 2 (goal). -/
def cmap : StaticMap :=
  { width := 5
    height := 3
    numFloorTiles := 3
    floorMask := 7
    goalMask := 4
    neighbors := [(-1, -1, -1, 1), (-1, -1, 0, 2), (-1, -1, 1, -1)] }

/-- The initial state of the corridor level: player at tile 0, box at tile 1. -/
def cstate : GameState :=
  { player_index := 0, box_indices := [1], box_bitboard := 2 }

/-- The corridor state after pushing the box right: player at tile 1, box on
the goal tile 2. -/
def cstateAfter : GameState :=
  { player_index := 1, box_indices := [2], box_bitboard := 4 }

/-! ### Lowest-set-bit lemmas

These justify the pop-lowest-bit loop embeddings: for `n ≠ 0`,
`lowBitIdx n` is the least set bit of `n`, and `popLow n` keeps exactly the
higher set bits. -/

theorem popLow_lt {n : Nat} (hn : n ≠ 0) : popLow n < n :=
  Nat.lt_of_le_of_lt Nat.and_le_right (Nat.sub_lt (Nat.pos_of_ne_zero hn) Nat.one_pos)

theorem log2_two_pow (v : Nat) : Nat.log2 (2 ^ v) = v := by
  induction v with
  | zero => simp [Nat.log2]
  | succ v ih =>
    rw [Nat.log2]
    have h2 : (2 : Nat) ^ (v + 1) / 2 = 2 ^ v := by
      rw [Nat.pow_succ]; exact Nat.mul_div_cancel _ (by norm_num)
    have hge : 2 ^ (v + 1) ≥ 2 := by
      calc (2 : Nat) = 2 ^ 1 := by norm_num
        _ ≤ 2 ^ (v + 1) := Nat.pow_le_pow_right (by norm_num) (by omega)
    simp [hge, h2, ih]

theorem odd_pred_testBit {m : Nat} (hm : m % 2 = 1) :
    ∀ j, Nat.testBit (m - 1) j = if j = 0 then false else Nat.testBit m j := by
  intro j
  cases j with
  | zero => simp [Nat.testBit_zero]; omega
  | succ k =>
    have hd : (m - 1) / 2 = m / 2 := by omega
    simp only [Nat.testBit_add_one, hd]
    simp

theorem lsb_facts {n : Nat} (hn : n ≠ 0) :
    Nat.testBit n (lowBitIdx n) = true ∧
    (∀ j < lowBitIdx n, Nat.testBit n j = false) ∧
    (∀ j, Nat.testBit (popLow n) j =
      (Nat.testBit n j && decide (lowBitIdx n < j))) := by
  obtain ⟨v, m, hodd, rfl⟩ := Nat.exists_eq_two_pow_mul_odd hn
  have hm : m % 2 = 1 := Nat.odd_iff.mp hodd
  have hmpos : 0 < m := by omega
  have hvpos : 0 < 2 ^ v := Nat.pos_pow_of_pos v (by norm_num)
  -- bits of n
  have hbit : ∀ j, Nat.testBit (2 ^ v * m) j = (decide (j ≥ v) && Nat.testBit m (j - v)) := by
    intro j; exact Nat.testBit_mul_pow_two
  -- bits of n - 1
  have hpred_eq : 2 ^ v * m - 1 = 2 ^ v * (m - 1) + (2 ^ v - 1) := by
    have : 2 ^ v * m = 2 ^ v * (m - 1) + 2 ^ v := by
      cases m with
      | zero => omega
      | succ k => simp [Nat.mul_succ]
    omega
  have hpredbit : ∀ j, Nat.testBit (2 ^ v * m - 1) j =
      if j < v then true else Nat.testBit (m - 1) (j - v) := by
    intro j
    rw [hpred_eq, Nat.testBit_mul_pow_two_add (m - 1) (Nat.sub_lt hvpos Nat.one_pos) j]
    by_cases hj : j < v
    · simp [hj]
    · simp [hj]
  -- the low-bit mask n ^^^ (n-1) is 2^(v+1) - 1
  have hxor : 2 ^ v * m ^^^ (2 ^ v * m - 1) = 2 ^ (v + 1) - 1 := by
    apply Nat.eq_of_testBit_eq
    intro j
    rw [Nat.testBit_xor, hbit j, hpredbit j, Nat.testBit_two_pow_sub_one]
    rcases Nat.lt_trichotomy j v with hj | hj | hj
    · simp [hj, Nat.not_le_of_lt hj, Nat.lt_succ_of_lt hj]
    · subst hj
      have h0 : Nat.testBit m 0 = true := by simp [Nat.testBit_zero, hm]
      have h0p : Nat.testBit (m - 1) 0 = false := by
        rw [odd_pred_testBit hm 0]; simp
      simp [h0, h0p]
    · have hne : j - v ≠ 0 := by omega
      rw [odd_pred_testBit hm (j - v)]
      simp [hne, Nat.le_of_lt hj, show ¬(j < v) by omega, show ¬(j < v + 1) by omega]
  -- hence the isolated low bit is 2^v and lowBitIdx is v
  have hlow : 2 ^ v * m &&& (2 ^ v * m ^^^ (2 ^ v * m - 1)) = 2 ^ v := by
    rw [hxor]
    apply Nat.eq_of_testBit_eq
    intro j
    rw [Nat.testBit_and, hbit j, Nat.testBit_two_pow_sub_one, Nat.testBit_two_pow]
    rcases Nat.lt_trichotomy j v with hj | hj | hj
    · simp [Nat.not_le_of_lt hj, show v ≠ j by omega]
    · subst hj
      have h0 : Nat.testBit m 0 = true := by simp [Nat.testBit_zero, hm]
      simp [h0]
    · simp [Nat.le_of_lt hj, show ¬(j < v + 1) by omega, show v ≠ j by omega]
  have hidx : lowBitIdx (2 ^ v * m) = v := by
    unfold lowBitIdx
    rw [hlow, log2_two_pow]
  rw [hidx]
  refine ⟨?_, ?_, ?_⟩
  · rw [hbit v]
    have h0 : Nat.testBit m 0 = true := by simp [Nat.testBit_zero, hm]
    simp [h0]
  · intro j hj
    rw [hbit j]
    simp [Nat.not_le_of_lt hj]
  · intro j
    unfold popLow
    rw [Nat.testBit_and, hbit j, hpredbit j]
    rcases Nat.lt_trichotomy j v with hj | hj | hj
    · simp [Nat.not_le_of_lt hj]
    · subst hj
      have h0p : Nat.testBit (m - 1) 0 = false := by
        rw [odd_pred_testBit hm 0]; simp
      simp [h0p]
    · have hne : j - v ≠ 0 := by omega
      rw [odd_pred_testBit hm (j - v)]
      simp [hne, Nat.le_of_lt hj, Nat.not_lt_of_lt hj, hj]

/-! ### Bool bridges for the bitboard primitives -/

theorem shiftLeft_one (k : Nat) : (1 <<< k) = 2 ^ k := by
  rw [Nat.shiftLeft_eq, one_mul]

theorem has_box_eq_testBit (bb : Bitboard) (i : TileIndex) :
    has_box bb i = Nat.testBit bb i.toNat := by
  unfold has_box
  rw [shiftLeft_one, Nat.and_two_pow]
  cases h : Nat.testBit bb i.toNat
  · simp [h]
  · simp [h, (Nat.two_pow_pos i.toNat).ne']

theorem and_shift_eq_zero (a : Bitboard) (k : Nat) :
    (a &&& (1 <<< k) = 0) ↔ Nat.testBit a k = false := by
  rw [shiftLeft_one, Nat.and_two_pow]
  cases h : Nat.testBit a k
  · simp [h]
  · simp [h, (Nat.two_pow_pos k).ne']

theorem all_boxes_on_goals_iff (bb goal : Bitboard) :
    all_boxes_on_goals bb goal = true ↔
      ∀ i, Nat.testBit bb i = true → Nat.testBit goal i = true := by
  unfold all_boxes_on_goals
  rw [beq_iff_eq]
  constructor
  · intro h i hi
    have h2 : Nat.testBit (bb &&& goal) i = true := by rw [h]; exact hi
    rw [Nat.testBit_and, hi] at h2
    simpa using h2
  · intro h
    apply Nat.eq_of_testBit_eq
    intro i
    rw [Nat.testBit_and]
    cases hi : Nat.testBit bb i
    · simp
    · simp [h i hi]

/-! ### Claim C1: case analysis of `apply_move` -/

/-- C1: for every static map, state and direction, `apply_move` rejects with
`BLOCKED_WALL` when the player's neighbor is the sentinel; walks (player to
the neighbor, boxes untouched) when the neighbor holds no box; rejects with
`BLOCKED_BOX` when the neighbor holds a box and the tile beyond is the
sentinel or holds another box; and otherwise pushes: the player moves to the
box's old tile, the box to the beyond tile, with outcome `WIN` exactly when
every box bit of the new state lies in `goal_mask` and `SUCCESS_PUSH`
otherwise.  Rejection returns no new state, and the input state is untouched
(the embedding is pure and the source constructs a fresh state on success,
mutating nothing). -/
theorem apply_move_cases (sm : StaticMap) (s : GameState) (d : Direction)
    (n b : TileIndex) (hn : getNeighbor sm s.player_index d = n)
    (hb : getNeighbor sm n d = b) :
    (n = -1 → apply_move sm s d = (none, .BLOCKED_WALL)) ∧
    (n ≠ -1 → has_box s.box_bitboard n = false →
      apply_move sm s d =
        (some { player_index := n
                box_indices := s.box_indices
                box_bitboard := s.box_bitboard }, .SUCCESS_WALK)) ∧
    (n ≠ -1 → has_box s.box_bitboard n = true →
      ((b = -1 ∨ has_box s.box_bitboard b = true) →
        apply_move sm s d = (none, .BLOCKED_BOX)) ∧
      (b ≠ -1 → has_box s.box_bitboard b = false →
        apply_move sm s d =
          (some { player_index := n
                  box_indices := update_box_indices s.box_indices n b
                  box_bitboard := move_box s.box_bitboard n b },
            if all_boxes_on_goals (move_box s.box_bitboard n b) sm.goalMask
            then .WIN else .SUCCESS_PUSH)) ∧
      (∀ bb : Bitboard, all_boxes_on_goals bb sm.goalMask = true ↔
        ∀ i, Nat.testBit bb i = true → Nat.testBit sm.goalMask i = true)) := by
  subst hn
  subst hb
  refine ⟨?_, ?_, ?_⟩
  · intro h1
    simp [apply_move, h1]
  · intro h1 h2
    simp [apply_move, h1, h2, GameState.with_move]
  · intro h1 h2
    refine ⟨?_, ?_, fun bb => all_boxes_on_goals_iff bb sm.goalMask⟩
    · rintro (h3 | h3) <;>
        simp [apply_move, apply_push, h1, h2, h3, GameState.is_solved]
    · intro h3 h4
      have happ : apply_move sm s d =
          apply_push sm s d (getNeighbor sm s.player_index d) := by
        simp [apply_move, h1, h2]
      rw [happ]
      simp only [apply_push]
      rw [if_neg h3, if_neg (by simp [h4])]
      split
      next hc =>
        have hc2 : all_boxes_on_goals
            (move_box s.box_bitboard (getNeighbor sm s.player_index d)
              (getNeighbor sm (getNeighbor sm s.player_index d) d))
            sm.goalMask = true := hc
        rw [if_pos hc2]
        rfl
      next hc =>
        have hc2 : ¬(all_boxes_on_goals
            (move_box s.box_bitboard (getNeighbor sm s.player_index d)
              (getNeighbor sm (getNeighbor sm s.player_index d) d))
            sm.goalMask = true) := hc
        rw [if_neg hc2]
        rfl

/-- Witness for C1 at the corridor level: the initial push right is a
winning push. -/
theorem apply_move_cases_witness :
    apply_move cmap cstate .RIGHT = (some cstateAfter, .WIN) := by
  have h := apply_move_cases cmap cstate .RIGHT 1 2 (by decide) (by decide)
  exact (((h.2.2 (by decide) (by decide)).2.1 (by decide) (by decide)).trans (by decide))

/-! ### Claim C2: `can_move` agrees with `apply_move`; legal-move list -/

/-- C2: `can_move` returns true exactly when `apply_move` on the same
inputs produces a new state, and `get_legal_move_directions` is the
enum-ordered filter of the four directions by `can_move`. -/
theorem can_move_agrees (sm : StaticMap) (s : GameState) :
    (∀ d, can_move sm s d = true ↔ (apply_move sm s d).1 ≠ none) ∧
    get_legal_move_directions sm s = dirList.filter (fun d => can_move sm s d) ∧
    (∀ d, d ∈ get_legal_move_directions sm s ↔ can_move sm s d = true) ∧
    List.Pairwise (fun a b => dirVal a < dirVal b) (get_legal_move_directions sm s) := by
  refine ⟨?_, rfl, ?_, ?_⟩
  · intro d
    by_cases h1 : getNeighbor sm s.player_index d = -1
    · simp [can_move, apply_move, h1]
    · by_cases h2 : has_box s.box_bitboard (getNeighbor sm s.player_index d) = true
      · by_cases h3 :
          getNeighbor sm (getNeighbor sm s.player_index d) d = -1
        · simp [can_move, apply_move, apply_push, h1, h2, h3]
        · by_cases h4 : has_box s.box_bitboard
              (getNeighbor sm (getNeighbor sm s.player_index d) d) = true
          · simp [can_move, apply_move, apply_push, h1, h2, h3, h4]
          · simp only [Bool.not_eq_true] at h4
            simp [can_move, apply_move, apply_push, h1, h2, h3, h4]
            split <;> simp
      · simp only [Bool.not_eq_true] at h2
        simp [can_move, apply_move, h1, h2]
  · intro d
    simp [get_legal_move_directions]
    intro h
    cases d <;> simp [dirList]
  · apply List.Pairwise.filter
    decide

/-! ### XOR toolbox and the sort function -/

theorem xor_left_comm (a b c : Nat) : a ^^^ (b ^^^ c) = b ^^^ (a ^^^ c) := by
  rw [← Nat.xor_assoc, Nat.xor_comm a b, Nat.xor_assoc]

theorem xor_cancel_left (a b : Nat) : a ^^^ (a ^^^ b) = b := by
  rw [← Nat.xor_assoc, Nat.xor_self, Nat.zero_xor]

theorem sortIdx_perm (l : List TileIndex) : (sortIdx l).Perm l :=
  List.perm_insertionSort _ l

theorem sortIdx_sorted (l : List TileIndex) : (sortIdx l).Sorted (· ≤ ·) :=
  List.sorted_insertionSort _ l

/-- Sorting is invariant under permutation of the input: both results are
sorted and permutations of each other. -/
theorem sortIdx_perm_eq {l1 l2 : List TileIndex} (h : l1.Perm l2) :
    sortIdx l1 = sortIdx l2 :=
  List.eq_of_perm_of_sorted
    (((sortIdx_perm l1).trans h).trans (sortIdx_perm l2).symm)
    (sortIdx_sorted l1) (sortIdx_sorted l2)

/-! ### Claim C8: canonicalization is permutation-invariant -/

/-- C8: two orderings of the same set of box tiles give identical canonical
box tuples, identical bitboards, equal states and identical hash keys. -/
theorem from_positions_perm (p : TileIndex) (l1 l2 : List TileIndex)
    (h : l1.Perm l2) :
    from_positions p l1 = from_positions p l2 ∧
    (from_positions p l1).box_indices = (from_positions p l2).box_indices ∧
    (from_positions p l1).box_bitboard = (from_positions p l2).box_bitboard ∧
    stateKey (from_positions p l1) = stateKey (from_positions p l2) := by
  have hs : sortIdx l1 = sortIdx l2 := sortIdx_perm_eq h
  unfold from_positions
  rw [hs]
  exact ⟨rfl, rfl, rfl, rfl⟩

/-- Witness for C8: the two orderings of the box set `{1, 2}`. -/
theorem from_positions_perm_witness :
    from_positions 0 [2, 1] = from_positions 0 [1, 2] :=
  (from_positions_perm 0 [2, 1] [1, 2] (by decide)).1

/-! ### Claim C7: incremental Zobrist updates match recomputation -/

/-- XOR of the box keys over a list of box indices (the loop of
`hash_state` with a zero seed). -/
def boxXor (z : ZobristHasher) (l : List TileIndex) : Nat :=
  l.foldl (fun h b => h ^^^ z.box_keys.getD b.toNat 0) 0

theorem hash_foldl (z : ZobristHasher) (a : Nat) (l : List TileIndex) :
    l.foldl (fun h b => h ^^^ z.box_keys.getD b.toNat 0) a = a ^^^ boxXor z l := by
  induction l generalizing a with
  | nil => simp [boxXor]
  | cons x xs ih =>
    show xs.foldl _ (a ^^^ _) = _
    rw [ih]
    have h0 : boxXor z (x :: xs) = z.box_keys.getD x.toNat 0 ^^^ boxXor z xs := by
      show xs.foldl _ (0 ^^^ _) = _
      rw [ih, Nat.zero_xor]
    rw [h0, Nat.xor_assoc]

theorem hash_state_eq (z : ZobristHasher) (p : TileIndex) (l : List TileIndex) :
    hash_state z p l = z.player_keys.getD p.toNat 0 ^^^ boxXor z l :=
  hash_foldl z _ l

theorem boxXor_perm (z : ZobristHasher) {l1 l2 : List TileIndex} (h : l1.Perm l2) :
    boxXor z l1 = boxXor z l2 := by
  induction h with
  | nil => rfl
  | cons x _ ih =>
    show List.foldl _ (0 ^^^ _) _ = List.foldl _ (0 ^^^ _) _
    rw [hash_foldl, hash_foldl, ih]
  | swap x y l =>
    show List.foldl _ ((0 ^^^ _) ^^^ _) _ = List.foldl _ ((0 ^^^ _) ^^^ _) _
    rw [hash_foldl, hash_foldl]
    rw [Nat.zero_xor, Nat.zero_xor, Nat.xor_assoc, Nat.xor_assoc,
      xor_left_comm]
  | trans _ _ ih1 ih2 => rw [ih1, ih2]

theorem boxXor_filter (z : ZobristHasher) {l : List TileIndex} {f : TileIndex}
    (hnd : l.Nodup) (hf : f ∈ l) :
    boxXor z l = z.box_keys.getD f.toNat 0 ^^^
      boxXor z (l.filter (fun idx => idx ≠ f)) := by
  have he : l.erase f = l.filter (fun idx => idx ≠ f) := by
    rw [hnd.erase_eq_filter]
    congr 1
    funext x
    by_cases hx : x = f <;> simp [bne, hx]
  have hp : l.Perm (f :: l.filter (fun idx => idx ≠ f)) := by
    rw [← he]; exact List.perm_cons_erase hf
  rw [boxXor_perm z hp]
  show List.foldl _ (0 ^^^ _) _ = _
  rw [hash_foldl, Nat.zero_xor]

/-- C7: for every hasher, valid player indices and canonical box tuple, the
incremental walk update of the pre-move hash equals recomputation from
scratch at the new player position; and for a box moved from `f` to `t`,
the incremental push update equals recomputation on the box tuple with `f`
removed and `t` inserted (the source's `_update_box_indices`). -/
theorem zobrist_incremental (z : ZobristHasher) (p p2 f t : TileIndex)
    (boxes : List TileIndex)
    (hp : 0 ≤ p ∧ p.toNat < z.player_keys.length)
    (hp2 : 0 ≤ p2 ∧ p2.toNat < z.player_keys.length)
    (hnd : boxes.Nodup) (hf : f ∈ boxes) :
    update_walk z (hash_state z p boxes) p p2 = hash_state z p2 boxes ∧
    update_push z (hash_state z p boxes) p p2 f t =
      hash_state z p2 (update_box_indices boxes f t) := by
  constructor
  · rw [update_walk, hash_state_eq, hash_state_eq]
    simp [Nat.xor_assoc, Nat.xor_comm, xor_left_comm, xor_cancel_left,
      Nat.xor_self, Nat.xor_zero, Nat.zero_xor]
  · rw [update_push, hash_state_eq, hash_state_eq]
    have h1 : boxXor z (update_box_indices boxes f t) =
        z.box_keys.getD t.toNat 0 ^^^
          boxXor z (boxes.filter (fun idx => idx ≠ f)) := by
      unfold update_box_indices
      rw [boxXor_perm z (sortIdx_perm _)]
      rw [boxXor_perm z (List.perm_append_comm)]
      show List.foldl _ (0 ^^^ _) _ = _
      rw [hash_foldl, Nat.zero_xor]
      simp
    have h2 : boxXor z boxes = z.box_keys.getD f.toNat 0 ^^^
        boxXor z (boxes.filter (fun idx => idx ≠ f)) := boxXor_filter z hnd hf
    rw [h1, h2]
    simp [Nat.xor_assoc, Nat.xor_comm, xor_left_comm, xor_cancel_left,
      Nat.xor_self, Nat.xor_zero, Nat.zero_xor]

/-- Witness for C7: a two-tile hasher, a walk from tile 0 to tile 1 and a
push of the box on tile 1 back to tile 0. -/
theorem zobrist_incremental_witness :
    update_walk { player_keys := [5, 9], box_keys := [3, 4] }
        (hash_state { player_keys := [5, 9], box_keys := [3, 4] } 0 [1]) 0 1 =
      hash_state { player_keys := [5, 9], box_keys := [3, 4] } 1 [1] ∧
    update_push { player_keys := [5, 9], box_keys := [3, 4] }
        (hash_state { player_keys := [5, 9], box_keys := [3, 4] } 0 [1]) 0 1 1 0 =
      hash_state { player_keys := [5, 9], box_keys := [3, 4] } 1
        (update_box_indices [1] 1 0) :=
  zobrist_incremental { player_keys := [5, 9], box_keys := [3, 4] } 0 1 1 0 [1]
    (by decide) (by decide) (by decide) (by decide)

/-! ### State-invariant infrastructure -/

theorem bool_eq_of_iff {a b : Bool} (h : a = true ↔ b = true) : a = b := by
  cases a <;> cases b <;> simp_all

theorem testBit_andNot (a b : Bitboard) (i : Nat) :
    Nat.testBit (andNot a b) i = (Nat.testBit a i && !Nat.testBit b i) := by
  unfold andNot
  rw [Nat.testBit_xor, Nat.testBit_and]
  cases Nat.testBit a i <;> cases Nat.testBit b i <;> rfl

theorem testBit_one_shift (k j : Nat) :
    Nat.testBit (1 <<< k) j = decide (k = j) := by
  rw [shiftLeft_one, Nat.testBit_two_pow]

theorem mem_dirList (d : Direction) : d ∈ dirList := by
  cases d <;> simp [dirList]

theorem from_indices_foldl (l : List TileIndex) (a : Bitboard) (i : Nat) :
    Nat.testBit (l.foldl (fun bb idx => bb ||| (1 <<< idx.toNat)) a) i = true ↔
      Nat.testBit a i = true ∨ ∃ b ∈ l, b.toNat = i := by
  induction l generalizing a with
  | nil => simp
  | cons x xs ih =>
    show Nat.testBit (xs.foldl _ (a ||| _)) i = true ↔ _
    rw [ih]
    simp only [Nat.testBit_or, testBit_one_shift, Bool.or_eq_true,
      decide_eq_true_eq, List.mem_cons]
    constructor
    · rintro ((h | h) | ⟨b, hb, hbi⟩)
      · exact Or.inl h
      · exact Or.inr ⟨x, Or.inl rfl, h⟩
      · exact Or.inr ⟨b, Or.inr hb, hbi⟩
    · rintro (h | ⟨b, (rfl | hb), hbi⟩)
      · exact Or.inl (Or.inl h)
      · exact Or.inl (Or.inr hbi)
      · exact Or.inr ⟨b, hb, hbi⟩

theorem from_indices_testBit (l : List TileIndex) (i : Nat) :
    Nat.testBit (from_indices l) i = true ↔ ∃ b ∈ l, b.toNat = i := by
  unfold from_indices
  rw [from_indices_foldl]
  simp

/-- For a valid state, the set bits of the bitboard are exactly the box
indices (the claim-facing reading of the mirror invariant). -/
theorem valid_testBit {sm : StaticMap} {s : GameState} (hv : ValidState sm s) (i : Nat) :
    Nat.testBit s.box_bitboard i = true ↔ (i : Int) ∈ s.box_indices := by
  rw [hv.2.1, from_indices_testBit]
  constructor
  · rintro ⟨b, hb, rfl⟩
    have hb0 : 0 ≤ b := (hv.2.2.2.2.2 b hb).1
    rwa [Int.toNat_of_nonneg hb0]
  · intro hi
    exact ⟨(i : Int), hi, by simp⟩

theorem valid_has_box {sm : StaticMap} {s : GameState} (hv : ValidState sm s)
    {x : TileIndex} (hx : 0 ≤ x) :
    has_box s.box_bitboard x = true ↔ x ∈ s.box_indices := by
  rw [has_box_eq_testBit, valid_testBit hv, Int.toNat_of_nonneg hx]

theorem valid_nodup {sm : StaticMap} {s : GameState} (hv : ValidState sm s) :
    s.box_indices.Nodup :=
  hv.1.imp (fun h => ne_of_lt h)

/-- Reading the floor mask of a well-formed map: bit `k` is set exactly for
valid tile indices. -/
theorem wf_floor_testBit {sm : StaticMap} (hw : WellFormed sm) (k : Nat) :
    Nat.testBit sm.floorMask k = true ↔ k < sm.numFloorTiles := by
  rw [hw.2.1, Nat.testBit_two_pow_sub_one]
  simp

/-- Neighbor facts of a well-formed map at a valid tile index. -/
theorem wf_neighbor {sm : StaticMap} (hw : WellFormed sm) {i : TileIndex}
    (hi0 : 0 ≤ i) (hi : i.toNat < sm.numFloorTiles) (d : Direction) :
    getNeighbor sm i d = -1 ∨
      (0 ≤ getNeighbor sm i d ∧
       (getNeighbor sm i d).toNat < sm.numFloorTiles ∧
       getNeighbor sm i d ≠ i ∧
       getNeighbor sm (getNeighbor sm i d) (opposite_direction d) = i) := by
  have h := hw.2.2 i.toNat hi d (mem_dirList d)
  rwa [Int.toNat_of_nonneg hi0] at h

theorem mem_update_box_indices (l : List TileIndex) (f t x : TileIndex) :
    x ∈ update_box_indices l f t ↔ ((x ∈ l ∧ x ≠ f) ∨ x = t) := by
  unfold update_box_indices
  rw [(sortIdx_perm _).mem_iff]
  simp [List.mem_filter]

theorem update_box_indices_pairwise (l : List TileIndex) (f t : TileIndex)
    (hnd : l.Nodup) (ht : t ∉ l) :
    (update_box_indices l f t).Pairwise (· < ·) := by
  have hnd2 : (l.filter (fun idx => idx ≠ f) ++ [t]).Nodup := by
    rw [List.nodup_append]
    refine ⟨hnd.filter _, List.nodup_singleton t, ?_⟩
    intro x hx hx2
    rcases List.mem_singleton.mp hx2 with rfl
    exact ht (List.mem_of_mem_filter hx)
  have hnd3 : (update_box_indices l f t).Nodup :=
    ((sortIdx_perm _).nodup_iff).mpr hnd2
  have hs : (update_box_indices l f t).Sorted (· ≤ ·) := sortIdx_sorted _
  exact List.Pairwise.imp₂ (fun a b hle hne => lt_of_le_of_ne hle hne) hs hnd3

/-- Two strictly ascending integer lists with the same members are equal. -/
theorem strictSorted_eq_of_mem {l1 l2 : List TileIndex}
    (h1 : l1.Pairwise (· < ·)) (h2 : l2.Pairwise (· < ·))
    (hmem : ∀ x, x ∈ l1 ↔ x ∈ l2) : l1 = l2 := by
  have hnd1 : l1.Nodup := h1.imp (fun h => ne_of_lt h)
  have hnd2 : l2.Nodup := h2.imp (fun h => ne_of_lt h)
  exact List.eq_of_perm_of_sorted
    ((List.perm_ext_iff_of_nodup hnd1 hnd2).mpr hmem)
    (h1.imp le_of_lt) (h2.imp le_of_lt)

/-- Inversion of a successful `apply_move`: it was either a walk or a push,
with the state and outcome the respective branch constructs. -/
theorem apply_move_inv (sm : StaticMap) (s : GameState) (d : Direction)
    (s2 : GameState) (r : MoveResult) (h : apply_move sm s d = (some s2, r)) :
    (getNeighbor sm s.player_index d ≠ -1 ∧
     has_box s.box_bitboard (getNeighbor sm s.player_index d) = false ∧
     s2 = { player_index := getNeighbor sm s.player_index d
            box_indices := s.box_indices
            box_bitboard := s.box_bitboard } ∧
     r = .SUCCESS_WALK) ∨
    (getNeighbor sm s.player_index d ≠ -1 ∧
     has_box s.box_bitboard (getNeighbor sm s.player_index d) = true ∧
     getNeighbor sm (getNeighbor sm s.player_index d) d ≠ -1 ∧
     has_box s.box_bitboard (getNeighbor sm (getNeighbor sm s.player_index d) d) = false ∧
     s2 = { player_index := getNeighbor sm s.player_index d
            box_indices := update_box_indices s.box_indices
              (getNeighbor sm s.player_index d)
              (getNeighbor sm (getNeighbor sm s.player_index d) d)
            box_bitboard := move_box s.box_bitboard
              (getNeighbor sm s.player_index d)
              (getNeighbor sm (getNeighbor sm s.player_index d) d) } ∧
     r = (if all_boxes_on_goals s2.box_bitboard sm.goalMask then .WIN
          else .SUCCESS_PUSH)) := by
  by_cases h1 : getNeighbor sm s.player_index d = -1
  · simp [apply_move, h1] at h
  · by_cases h2 : has_box s.box_bitboard (getNeighbor sm s.player_index d) = true
    · by_cases h3 : getNeighbor sm (getNeighbor sm s.player_index d) d = -1
      · simp [apply_move, apply_push, h1, h2, h3] at h
      · by_cases h4 : has_box s.box_bitboard
            (getNeighbor sm (getNeighbor sm s.player_index d) d) = true
        · simp [apply_move, apply_push, h1, h2, h3, h4] at h
        · simp only [Bool.not_eq_true] at h4
          right
          simp only [apply_move, apply_push, if_neg h1, h2, if_true, if_neg h3, h4,
            Bool.false_eq_true, if_false] at h
          split at h
          next hc =>
            simp only [Prod.mk.injEq, Option.some.injEq] at h
            obtain ⟨hs2, hr⟩ := h
            subst hs2
            refine ⟨h1, h2, h3, h4, rfl, ?_⟩
            have hc2 : all_boxes_on_goals
                (s.with_move (getNeighbor sm s.player_index d)
                    (some (getNeighbor sm s.player_index d))
                    (some (getNeighbor sm (getNeighbor sm s.player_index d) d))).box_bitboard
                sm.goalMask = true := hc
            rw [← hr, if_pos hc2]
          next hc =>
            simp only [Prod.mk.injEq, Option.some.injEq] at h
            obtain ⟨hs2, hr⟩ := h
            subst hs2
            refine ⟨h1, h2, h3, h4, rfl, ?_⟩
            have hc2 : ¬(all_boxes_on_goals
                (s.with_move (getNeighbor sm s.player_index d)
                    (some (getNeighbor sm s.player_index d))
                    (some (getNeighbor sm (getNeighbor sm s.player_index d) d))).box_bitboard
                sm.goalMask = true) := hc
            rw [← hr, if_neg hc2]
    · simp only [Bool.not_eq_true] at h2
      left
      simp only [apply_move, if_neg h1, h2, Bool.false_eq_true, if_false,
        Prod.mk.injEq, Option.some.injEq] at h
      obtain ⟨hs2, hr⟩ := h
      exact ⟨h1, h2, hs2.symm, hr.symm⟩

/-- The pushed bitboard is the mirror of the updated box list. -/
theorem move_box_mirror {sm : StaticMap} {s : GameState} (hv : ValidState sm s)
    {n b : TileIndex} (hn0 : 0 ≤ n) (hb0 : 0 ≤ b)
    (hnmem : n ∈ s.box_indices) (hbmem : b ∉ s.box_indices) :
    move_box s.box_bitboard n b = from_indices (update_box_indices s.box_indices n b) := by
  apply Nat.eq_of_testBit_eq
  intro i
  apply bool_eq_of_iff
  unfold move_box
  rw [Nat.testBit_or, testBit_andNot, from_indices_testBit]
  simp only [testBit_one_shift, Bool.or_eq_true, Bool.and_eq_true,
    Bool.not_eq_true', decide_eq_true_eq, decide_eq_false_iff_not]
  constructor
  · rintro (⟨hbit, hni⟩ | hbi)
    · have hmem : (i : Int) ∈ s.box_indices := (valid_testBit hv i).mp hbit
      refine ⟨(i : Int), ?_, by simp⟩
      rw [mem_update_box_indices]
      refine Or.inl ⟨hmem, ?_⟩
      intro hin
      exact hni (by rw [← hin]; simp)
    · exact ⟨b, (mem_update_box_indices _ _ _ _).mpr (Or.inr rfl), hbi⟩
  · rintro ⟨x, hx, hxi⟩
    rw [mem_update_box_indices] at hx
    rcases hx with ⟨hxl, hxn⟩ | rfl
    · have hx0 : 0 ≤ x := (hv.2.2.2.2.2 x hxl).1
      have hxe : x = (i : Int) := by
        rw [← hxi, Int.toNat_of_nonneg hx0]
      left
      constructor
      · rw [valid_testBit hv i, ← hxe]; exact hxl
      · intro hni
        apply hxn
        rw [hxe, ← hni, Int.toNat_of_nonneg hn0]
    · exact Or.inr hxi

/-- Every successful move preserves the state invariant. -/
theorem apply_preserves_valid (sm : StaticMap) (s : GameState) (d : Direction)
    (s2 : GameState) (r : MoveResult) (hw : WellFormed sm) (hv : ValidState sm s)
    (h : apply_move sm s d = (some s2, r)) : ValidState sm s2 := by
  have hp0 : 0 ≤ s.player_index := hv.2.2.2.1
  have hpn : s.player_index.toNat < sm.numFloorTiles :=
    (wf_floor_testBit hw _).mp hv.2.2.2.2.1
  rcases apply_move_inv sm s d s2 r h with ⟨h1, h2, rfl, _⟩ | ⟨h1, h2, h3, h4, rfl, _⟩
  · obtain ⟨hn0, hnlt, _, _⟩ := (wf_neighbor hw hp0 hpn d).resolve_left h1
    refine ⟨hv.1, hv.2.1, ?_, hn0, (wf_floor_testBit hw _).mpr hnlt, hv.2.2.2.2.2⟩
    intro hmem
    have := (valid_has_box hv hn0).mpr hmem
    rw [h2] at this
    cases this
  · obtain ⟨hn0, hnlt, _, _⟩ := (wf_neighbor hw hp0 hpn d).resolve_left h1
    obtain ⟨hb0, hblt, hbne, _⟩ := (wf_neighbor hw hn0 hnlt d).resolve_left h3
    have hnm : getNeighbor sm s.player_index d ∈ s.box_indices :=
      (valid_has_box hv hn0).mp h2
    have hbm : getNeighbor sm (getNeighbor sm s.player_index d) d ∉ s.box_indices := by
      intro hmem
      have := (valid_has_box hv hb0).mpr hmem
      rw [h4] at this
      cases this
    refine ⟨?_, ?_, ?_, hn0, (wf_floor_testBit hw _).mpr hnlt, ?_⟩
    · exact update_box_indices_pairwise _ _ _ (valid_nodup hv) hbm
    · exact move_box_mirror hv hn0 hb0 hnm hbm
    · rw [mem_update_box_indices]
      rintro (⟨_, hne⟩ | heq)
      · exact hne rfl
      · exact hbne heq.symm
    · intro x hx
      rw [mem_update_box_indices] at hx
      rcases hx with ⟨hxl, _⟩ | rfl
      · exact hv.2.2.2.2.2 x hxl
      · exact ⟨hb0, (wf_floor_testBit hw _).mpr hblt⟩

/-- Construction from canonical positions satisfies the invariant. -/
theorem from_positions_valid (sm : StaticMap) (p : TileIndex) (l : List TileIndex)
    (hw : WellFormed sm) (hnd : l.Nodup)
    (hl : ∀ b ∈ l, 0 ≤ b ∧ Nat.testBit sm.floorMask b.toNat = true)
    (hp0 : 0 ≤ p) (hpf : Nat.testBit sm.floorMask p.toNat = true) (hpl : p ∉ l) :
    ValidState sm (from_positions p l) := by
  show ValidState sm
    { player_index := p, box_indices := sortIdx l, box_bitboard := from_indices (sortIdx l) }
  refine ⟨?_, rfl, ?_, hp0, hpf, ?_⟩
  · have hnd2 : (sortIdx l).Nodup := ((sortIdx_perm l).nodup_iff).mpr hnd
    exact List.Pairwise.imp₂ (fun a b hle hne => lt_of_le_of_ne hle hne)
      (sortIdx_sorted l) hnd2
  · intro hm
    exact hpl ((sortIdx_perm l).mem_iff.mp hm)
  · intro b hb
    exact hl b ((sortIdx_perm l).mem_iff.mp hb)

/-- Embeds the `was_push` computation of `Game.move`:
`result in (MoveResult.SUCCESS_PUSH, MoveResult.WIN)`. -/
def move_was_push (r : MoveResult) : Bool := r == .SUCCESS_PUSH || r == .WIN

/-- Replaying the record of a successful move from the pre-move state
reproduces the post-move state. -/
theorem replay_apply (sm : StaticMap) (s : GameState) (d : Direction)
    (s2 : GameState) (r : MoveResult) (h : apply_move sm s d = (some s2, r)) :
    replay_move sm s ⟨d, move_was_push r⟩ = s2 := by
  rcases apply_move_inv sm s d s2 r h with ⟨_, _, rfl, rfl⟩ | ⟨_, _, _, _, rfl, hr⟩
  · rfl
  · have hwp : move_was_push r = true := by rw [hr]; split <;> rfl
    simp only [replay_move, hwp, Bool.not_true, Bool.false_eq_true, if_false]
    rfl

/-- Undoing twice-moved box bits restores the original bitboard. -/
theorem move_box_invert {sm : StaticMap} {s : GameState} (hv : ValidState sm s)
    {n b : TileIndex} (hn0 : 0 ≤ n) (hb0 : 0 ≤ b) (hne : b ≠ n)
    (hnmem : n ∈ s.box_indices) (hbmem : b ∉ s.box_indices) :
    move_box (move_box s.box_bitboard n b) b n = s.box_bitboard := by
  have hbitn : Nat.testBit s.box_bitboard n.toNat = true := by
    rw [valid_testBit hv, Int.toNat_of_nonneg hn0]; exact hnmem
  have hbitb : Nat.testBit s.box_bitboard b.toNat = false := by
    rw [← Bool.not_eq_true, valid_testBit hv, Int.toNat_of_nonneg hb0]
    exact hbmem
  have htne : n.toNat ≠ b.toNat := by
    intro hc
    apply hne
    rw [← Int.toNat_of_nonneg hb0, ← Int.toNat_of_nonneg hn0, hc]
  apply Nat.eq_of_testBit_eq
  intro i
  unfold move_box
  simp only [Nat.testBit_or, testBit_andNot, testBit_one_shift]
  by_cases hin : n.toNat = i
  · subst hin
    simp [hbitn, Ne.symm htne]
  · by_cases hib : b.toNat = i
    · subst hib
      simp [hbitb, htne]
    · simp [hin, hib]

/-- Inverting the record of a successful move against the post-move state
restores the pre-move state. -/
theorem invert_apply (sm : StaticMap) (s : GameState) (d : Direction)
    (s2 : GameState) (r : MoveResult) (hw : WellFormed sm) (hv : ValidState sm s)
    (h : apply_move sm s d = (some s2, r)) :
    invert_move sm s2 ⟨d, move_was_push r⟩ = s := by
  have hp0 : 0 ≤ s.player_index := hv.2.2.2.1
  have hpn : s.player_index.toNat < sm.numFloorTiles :=
    (wf_floor_testBit hw _).mp hv.2.2.2.2.1
  have hv2 : ValidState sm s2 := apply_preserves_valid sm s d s2 r hw hv h
  rcases apply_move_inv sm s d s2 r h with ⟨h1, h2, rfl, rfl⟩ | ⟨h1, h2, h3, h4, hs2, hr⟩
  · obtain ⟨hn0, hnlt, _, hninv⟩ := (wf_neighbor hw hp0 hpn d).resolve_left h1
    show ({ player_index := getNeighbor sm (getNeighbor sm s.player_index d)
              (opposite_direction d)
            box_indices := s.box_indices
            box_bitboard := s.box_bitboard } : GameState) = s
    rw [hninv]
  · set n := getNeighbor sm s.player_index d with hndef
    set b := getNeighbor sm n d with hbdef
    obtain ⟨hn0, hnlt, _, hninv⟩ := (wf_neighbor hw hp0 hpn d).resolve_left h1
    obtain ⟨hb0, hblt, hbne, _⟩ := (wf_neighbor hw hn0 hnlt d).resolve_left h3
    have hwp : move_was_push r = true := by rw [hr]; split <;> rfl
    have hnm : n ∈ s.box_indices := (valid_has_box hv hn0).mp h2
    have hbm : b ∉ s.box_indices := by
      intro hmem
      have := (valid_has_box hv hb0).mpr hmem
      rw [h4] at this
      cases this
    have hinner_pw : (update_box_indices s.box_indices n b).Pairwise (· < ·) :=
      update_box_indices_pairwise _ _ _ (valid_nodup hv) hbm
    have hinner_nd : (update_box_indices s.box_indices n b).Nodup :=
      hinner_pw.imp (fun h => ne_of_lt h)
    have hnin : n ∉ update_box_indices s.box_indices n b := by
      rw [mem_update_box_indices]
      rintro (⟨_, hne2⟩ | heq)
      · exact hne2 rfl
      · exact hbne heq.symm
    have hlists : update_box_indices (update_box_indices s.box_indices n b) b n =
        s.box_indices := by
      apply strictSorted_eq_of_mem
        (update_box_indices_pairwise _ _ _ hinner_nd hnin) hv.1
      intro x
      rw [mem_update_box_indices, mem_update_box_indices]
      constructor
      · rintro (⟨⟨hxl, _⟩ | rfl, hxb⟩ | rfl)
        · exact hxl
        · exact absurd rfl hxb
        · exact hnm
      · intro hxl
        by_cases hxn : x = n
        · exact Or.inr hxn
        · refine Or.inl ⟨Or.inl ⟨hxl, hxn⟩, ?_⟩
          intro hxb
          exact hbm (hxb ▸ hxl)
    have hbb : move_box (move_box s.box_bitboard n b) b n = s.box_bitboard :=
      move_box_invert hv hn0 hb0 hbne hnm hbm
    have hinv : invert_move sm s2 ⟨d, move_was_push r⟩ =
        s2.with_move (getNeighbor sm s2.player_index (opposite_direction d))
          (some (getNeighbor sm s2.player_index d)) (some s2.player_index) := by
      simp only [invert_move, hwp, Bool.not_true, Bool.false_eq_true, if_false]
    rw [hinv, hs2]
    show ({ player_index := getNeighbor sm n (opposite_direction d)
            box_indices := update_box_indices (update_box_indices s.box_indices n b)
              (getNeighbor sm n d) n
            box_bitboard := move_box (move_box s.box_bitboard n b)
              (getNeighbor sm n d) n } : GameState) = s
    rw [← hbdef, hninv, hlists, hbb]

/-! ### Claim C3: undo and redo are strict inverses of a legal move -/

/-- C3: for a valid state and a legal move, inverting the recorded move
(direction plus push flag, as `Game.move` records it) against the post-move
state restores the pre-move state, and replaying it from the pre-move state
reproduces the post-move state; hence undo-then-redo and redo-then-undo are
strict identities on `GameState` equality and on the hash key (the pair
Python's `__hash__` hashes). -/
theorem undo_redo_identity (sm : StaticMap) (s : GameState) (d : Direction)
    (s2 : GameState) (r : MoveResult) (hw : WellFormed sm) (hv : ValidState sm s)
    (h : apply_move sm s d = (some s2, r)) :
    invert_move sm s2 ⟨d, move_was_push r⟩ = s ∧
    replay_move sm s ⟨d, move_was_push r⟩ = s2 ∧
    replay_move sm (invert_move sm s2 ⟨d, move_was_push r⟩)
      ⟨d, move_was_push r⟩ = s2 ∧
    invert_move sm (replay_move sm s ⟨d, move_was_push r⟩)
      ⟨d, move_was_push r⟩ = s ∧
    stateKey (replay_move sm (invert_move sm s2 ⟨d, move_was_push r⟩)
      ⟨d, move_was_push r⟩) = stateKey s2 ∧
    stateKey (invert_move sm (replay_move sm s ⟨d, move_was_push r⟩)
      ⟨d, move_was_push r⟩) = stateKey s := by
  have hi := invert_apply sm s d s2 r hw hv h
  have hr := replay_apply sm s d s2 r h
  refine ⟨hi, hr, ?_, ?_, ?_, ?_⟩
  · rw [hi, hr]
  · rw [hr, hi]
  · rw [hi, hr]
  · rw [hr, hi]

/-- Witness for C3 at the corridor level: the winning push right. -/
theorem undo_redo_identity_witness :
    invert_move cmap cstateAfter ⟨.RIGHT, move_was_push .WIN⟩ = cstate ∧
    replay_move cmap cstate ⟨.RIGHT, move_was_push .WIN⟩ = cstateAfter :=
  ⟨(undo_redo_identity cmap cstate .RIGHT cstateAfter .WIN (by decide) (by decide)
      (by decide)).1,
   (undo_redo_identity cmap cstate .RIGHT cstateAfter .WIN (by decide) (by decide)
      (by decide)).2.1⟩

/-! ### Claim C5: the state invariant holds and is preserved -/

/-- C5: a state built by `from_positions` from duplicate-free in-floor box
indices and an in-floor player not on a box satisfies the invariant; every
state produced by a successful `apply_move` from a valid state satisfies it;
and so do the states produced by `invert_move`/`replay_move` for the record
of the move actually applied.  The final conjunct spells the invariant out
as the claim reads it: the set bits of the bitboard are exactly the box
indices, which are strictly ascending, the player is not a box, and player
and boxes lie in the floor mask. -/
theorem state_invariant_holds (sm : StaticMap) (hw : WellFormed sm) :
    (∀ p l, l.Nodup → (∀ b ∈ l, 0 ≤ b ∧ Nat.testBit sm.floorMask b.toNat = true) →
      0 ≤ p → Nat.testBit sm.floorMask p.toNat = true → p ∉ l →
      ValidState sm (from_positions p l)) ∧
    (∀ s d s2 r, ValidState sm s → apply_move sm s d = (some s2, r) →
      ValidState sm s2) ∧
    (∀ s d s2 r, ValidState sm s → apply_move sm s d = (some s2, r) →
      ValidState sm (invert_move sm s2 ⟨d, move_was_push r⟩) ∧
      ValidState sm (replay_move sm s ⟨d, move_was_push r⟩)) ∧
    (∀ s, ValidState sm s →
      (∀ i, Nat.testBit s.box_bitboard i = true ↔ (i : Int) ∈ s.box_indices) ∧
      s.box_indices.Pairwise (· < ·) ∧
      s.player_index ∉ s.box_indices ∧
      0 ≤ s.player_index ∧
      Nat.testBit sm.floorMask s.player_index.toNat = true ∧
      ∀ b ∈ s.box_indices, 0 ≤ b ∧ Nat.testBit sm.floorMask b.toNat = true) := by
  refine ⟨?_, ?_, ?_, ?_⟩
  · intro p l hnd hl hp0 hpf hpl
    exact from_positions_valid sm p l hw hnd hl hp0 hpf hpl
  · intro s d s2 r hv h
    exact apply_preserves_valid sm s d s2 r hw hv h
  · intro s d s2 r hv h
    constructor
    · rw [invert_apply sm s d s2 r hw hv h]
      exact hv
    · rw [replay_apply sm s d s2 r h]
      exact apply_preserves_valid sm s d s2 r hw hv h
  · intro s hv
    exact ⟨valid_testBit hv, hv.1, hv.2.2.1, hv.2.2.2.1, hv.2.2.2.2.1, hv.2.2.2.2.2⟩

/-- Witness for C5 at the corridor level: construction and the winning push
both yield invariant-satisfying states. -/
theorem state_invariant_holds_witness :
    ValidState cmap (from_positions 0 [1]) ∧ ValidState cmap cstateAfter :=
  ⟨(state_invariant_holds cmap (by decide)).1 0 [1] (by decide) (by decide)
      (by decide) (by decide) (by decide),
   (state_invariant_holds cmap (by decide)).2.1 cstate .RIGHT cstateAfter .WIN
      (by decide) (by decide)⟩

/-! ### Claim C6: geometry of move inversion

The claim as written says the box's current tile is the neighbor of the
*previous* player tile in the move's original direction, and that the box's
previous tile was the *old* (pre-move) player tile.  The code
(`invert_move`) computes the box's current tile as the neighbor of the
*current post-move* player tile in the original direction, and the box's
previous tile is the post-move player tile itself.  The counterexample
below exhibits the difference; the amended theorem states what the code
does. -/

/-- C6 counterexample: at the corridor level, after the push right the
previous player tile is 0, the claim designates `nbr(0, RIGHT) = 1` as the
box's current tile, but tile 1 holds no box in the post-move state — the
box sits at `nbr(current player 1, RIGHT) = 2`.  Likewise the box's
previous tile is 1 (the post-move player tile), not the pre-move player
tile 0. -/
theorem invert_move_claim_counterexample :
    apply_move cmap cstate .RIGHT = (some cstateAfter, .WIN) ∧
    getNeighbor cmap cstateAfter.player_index (opposite_direction .RIGHT) = 0 ∧
    getNeighbor cmap 0 .RIGHT = 1 ∧
    has_box cstateAfter.box_bitboard 1 = false ∧
    getNeighbor cmap cstateAfter.player_index .RIGHT = 2 ∧
    has_box cstateAfter.box_bitboard 2 = true ∧
    has_box cstate.box_bitboard 0 = false := by decide

/-- C6 (amended): when undoing the record of an actually-applied move, the
player's previous tile is the neighbor of the current (post-move) player
tile in the opposite direction; and when the record was a push, the box's
current tile is the neighbor of the current (post-move) player tile in the
move's original direction, the box's previous tile was the post-move player
tile itself, and inversion moves the box back to that tile, restoring the
pre-move state. -/
theorem invert_move_geometry (sm : StaticMap) (s : GameState) (d : Direction)
    (s2 : GameState) (r : MoveResult) (hw : WellFormed sm) (hv : ValidState sm s)
    (h : apply_move sm s d = (some s2, r)) :
    (invert_move sm s2 ⟨d, move_was_push r⟩).player_index =
      getNeighbor sm s2.player_index (opposite_direction d) ∧
    getNeighbor sm s2.player_index (opposite_direction d) = s.player_index ∧
    (move_was_push r = true →
      has_box s2.box_bitboard (getNeighbor sm s2.player_index d) = true ∧
      has_box s.box_bitboard s2.player_index = true ∧
      invert_move sm s2 ⟨d, move_was_push r⟩ =
        s2.with_move (getNeighbor sm s2.player_index (opposite_direction d))
          (some (getNeighbor sm s2.player_index d)) (some s2.player_index) ∧
      invert_move sm s2 ⟨d, move_was_push r⟩ = s) := by
  have hp0 : 0 ≤ s.player_index := hv.2.2.2.1
  have hpn : s.player_index.toNat < sm.numFloorTiles :=
    (wf_floor_testBit hw _).mp hv.2.2.2.2.1
  have hv2 : ValidState sm s2 := apply_preserves_valid sm s d s2 r hw hv h
  have hia := invert_apply sm s d s2 r hw hv h
  refine ⟨?_, ?_, ?_⟩
  · cases hb : move_was_push r <;>
      simp [invert_move, hb, GameState.with_move]
  · rcases apply_move_inv sm s d s2 r h with ⟨h1, _, rfl, _⟩ | ⟨h1, _, _, _, hs2, _⟩
    · obtain ⟨_, _, _, hninv⟩ := (wf_neighbor hw hp0 hpn d).resolve_left h1
      exact hninv
    · obtain ⟨_, _, _, hninv⟩ := (wf_neighbor hw hp0 hpn d).resolve_left h1
      rw [hs2]
      exact hninv
  · intro hwp
    rcases apply_move_inv sm s d s2 r h with ⟨_, _, rfl, rfl⟩ | ⟨h1, h2, h3, h4, hs2, hr⟩
    · cases hwp
    · obtain ⟨hn0, hnlt, _, _⟩ := (wf_neighbor hw hp0 hpn d).resolve_left h1
      obtain ⟨hb0, _, _, _⟩ := (wf_neighbor hw hn0 hnlt d).resolve_left h3
      refine ⟨?_, ?_, ?_, hia⟩
      · have hbmem : getNeighbor sm s2.player_index d ∈ s2.box_indices := by
          rw [hs2]
          show getNeighbor sm (getNeighbor sm s.player_index d) d ∈
            update_box_indices s.box_indices (getNeighbor sm s.player_index d)
              (getNeighbor sm (getNeighbor sm s.player_index d) d)
          exact (mem_update_box_indices _ _ _ _).mpr (Or.inr rfl)
        have hb0s : 0 ≤ getNeighbor sm s2.player_index d := by
          rw [hs2]; exact hb0
        exact (valid_has_box hv2 hb0s).mpr hbmem
      · rw [hs2]
        exact h2
      · simp only [invert_move, hwp, Bool.not_true, Bool.false_eq_true, if_false]

/-- Witness for the amended C6 at the corridor level. -/
theorem invert_move_geometry_witness :
    getNeighbor cmap cstateAfter.player_index (opposite_direction .RIGHT) =
      cstate.player_index ∧
    invert_move cmap cstateAfter ⟨.RIGHT, move_was_push .WIN⟩ = cstate := by
  have h := invert_move_geometry cmap cstate .RIGHT cstateAfter .WIN (by decide)
    (by decide) (by decide)
  exact ⟨h.2.1, (h.2.2 (by decide)).2.2.2⟩

/-! ### Claim C9: `Game.clone` sharing and resetting

The spec and `tests/test_zobrist.py` require the clone to share the
original's `ZobristHasher` instance (`clone._zobrist is game._zobrist`),
but `Game.__init__` and `Game.clone` in `engine/game.py` create no
`_zobrist` attribute at all, so that part of the claim has no
counterpart in the code (the test raises `AttributeError`).  The theorem
below evaluates the embedded `Game.clone` — whose fields are exactly the
source's — at a concrete mid-game input: the clone shares the static map
and initial state, its state equals the original's, its history is fresh
and empty, and the original is untouched. -/

/-- A corridor game after the winning push: one record in the history. -/
def cgame : Game :=
  { static_map := cmap
    initial_state := cstate
    state := cstateAfter
    history := { history := [⟨.RIGHT, true⟩], redo_stack := [], push_count := 1 } }

/-- C9 (code side): the fields `Game.clone` actually produces. -/
theorem clone_shares_map_resets_history :
    cgame.clone.static_map = cgame.static_map ∧
    cgame.clone.initial_state = cgame.initial_state ∧
    cgame.clone.state = cgame.state ∧
    cgame.clone.history = UndoStack.freshEmpty ∧
    UndoStack.can_undo cgame.clone.history = false ∧
    UndoStack.can_redo cgame.clone.history = false ∧
    UndoStack.move_count cgame.clone.history = 0 ∧
    cgame.history = { history := [⟨.RIGHT, true⟩], redo_stack := [], push_count := 1 } ∧
    cgame.state = cstateAfter := by decide

/-! ### Reachability: the inductive closure -/

/-- The least set of tiles containing the start tile and closed under
stepping to an existing passable neighbor: this is what both flood fills
compute. -/
inductive Reaches (sm : StaticMap) (pass : Bitboard) (start : Nat) : Nat → Prop where
  | refl : Reaches sm pass start start
  | step {t : Nat} (d : Direction) (ht : Reaches sm pass start t)
      (hne : getNeighbor sm (t : Int) d ≠ -1)
      (hp : Nat.testBit pass (getNeighbor sm (t : Int) d).toNat = true) :
      Reaches sm pass start (getNeighbor sm (t : Int) d).toNat

/-- One tile being a passable, existing neighbor of another. -/
def Justified (sm : StaticMap) (pass : Bitboard) (t j : Nat) : Prop :=
  ∃ d, getNeighbor sm (t : Int) d ≠ -1 ∧
    Nat.testBit pass (getNeighbor sm (t : Int) d).toNat = true ∧
    j = (getNeighbor sm (t : Int) d).toNat

theorem reaches_of_justified {sm : StaticMap} {pass : Bitboard} {start t j : Nat}
    (ht : Reaches sm pass start t) (hj : Justified sm pass t j) :
    Reaches sm pass start j := by
  obtain ⟨d, hne, hp, rfl⟩ := hj
  exact Reaches.step d ht hne hp

/-- Any bit set closed under `Justified` and containing the start tile
contains every reachable tile. -/
theorem reaches_in_closed {sm : StaticMap} {pass : Bitboard} {start : Nat}
    {res : Bitboard} (hstart : Nat.testBit res start = true)
    (hclosed : ∀ t j, Nat.testBit res t = true → Justified sm pass t j →
      Nat.testBit res j = true) :
    ∀ j, Reaches sm pass start j → Nat.testBit res j = true := by
  intro j h
  induction h with
  | refl => exact hstart
  | step d _ hne hp ih => exact hclosed _ _ ih ⟨d, hne, hp, rfl⟩

theorem and_shift_ne_zero (a : Bitboard) (k : Nat) :
    (a &&& (1 <<< k) ≠ 0) ↔ Nat.testBit a k = true := by
  rw [Ne, and_shift_eq_zero]
  cases htb : Nat.testBit a k <;> simp

theorem testBit_andNot_mask (a b : Bitboard) (i : Nat)
    (h : Nat.testBit (andNot a b) i = true) : Nat.testBit a i = true := by
  rw [testBit_andNot] at h
  simp only [Bool.and_eq_true] at h
  exact h.1

theorem addPassableNbr_testBit (sm : StaticMap) (pass : Bitboard) (t : Nat)
    (acc : Bitboard) (d : Direction) (j : Nat) :
    Nat.testBit (addPassableNbr sm pass t acc d) j = true ↔
      Nat.testBit acc j = true ∨
        (getNeighbor sm (t : Int) d ≠ -1 ∧
         Nat.testBit pass (getNeighbor sm (t : Int) d).toNat = true ∧
         j = (getNeighbor sm (t : Int) d).toNat) := by
  show Nat.testBit (if getNeighbor sm (t : Int) d ≠ -1 ∧
      pass &&& 1 <<< (getNeighbor sm (t : Int) d).toNat ≠ 0 then
      acc ||| 1 <<< (getNeighbor sm (t : Int) d).toNat else acc) j = true ↔ _
  split
  next hcond =>
    obtain ⟨hne, hbit⟩ := hcond
    rw [Nat.testBit_or, testBit_one_shift]
    have hb2 : Nat.testBit pass (getNeighbor sm (t : Int) d).toNat = true :=
      (and_shift_ne_zero _ _).mp hbit
    simp only [Bool.or_eq_true, decide_eq_true_eq]
    constructor
    · rintro (h | h)
      · exact Or.inl h
      · exact Or.inr ⟨hne, hb2, h.symm⟩
    · rintro (h | ⟨_, _, rfl⟩)
      · exact Or.inl h
      · exact Or.inr rfl
  next hcond =>
    constructor
    · exact Or.inl
    · rintro (h | ⟨hne, hbit, rfl⟩)
      · exact h
      · exact absurd ⟨hne, (and_shift_ne_zero _ _).mpr hbit⟩ hcond

theorem existsDir (P : Direction → Prop) :
    (∃ d, P d) ↔ P .UP ∨ P .DOWN ∨ P .LEFT ∨ P .RIGHT := by
  constructor
  · rintro ⟨d, hd⟩
    cases d
    · exact Or.inl hd
    · exact Or.inr (Or.inl hd)
    · exact Or.inr (Or.inr (Or.inl hd))
    · exact Or.inr (Or.inr (Or.inr hd))
  · rintro (h | h | h | h)
    · exact ⟨_, h⟩
    · exact ⟨_, h⟩
    · exact ⟨_, h⟩
    · exact ⟨_, h⟩

theorem expandStep_testBit (sm : StaticMap) (pass : Bitboard) (t : Nat)
    (acc : Bitboard) (j : Nat) :
    Nat.testBit (dirList.foldl (addPassableNbr sm pass t) acc) j = true ↔
      Nat.testBit acc j = true ∨ Justified sm pass t j := by
  show Nat.testBit (addPassableNbr sm pass t
      (addPassableNbr sm pass t (addPassableNbr sm pass t
        (addPassableNbr sm pass t acc .UP) .DOWN) .LEFT) .RIGHT) j = true ↔ _
  rw [addPassableNbr_testBit, addPassableNbr_testBit, addPassableNbr_testBit,
    addPassableNbr_testBit, Justified, existsDir]
  tauto

/-- Pointwise characterisation of the expansion loop: the result holds the
accumulator's bits plus every passable, existing neighbor of a tile of
`remaining`. -/
theorem expandLoop_testBit (sm : StaticMap) (pass : Bitboard) :
    ∀ rem acc j, Nat.testBit (expandLoop sm pass rem acc) j = true ↔
      Nat.testBit acc j = true ∨
        ∃ t, Nat.testBit rem t = true ∧ Justified sm pass t j := by
  intro rem
  induction rem using Nat.strong_induction_on with
  | _ rem ih =>
    intro acc j
    by_cases h0 : rem = 0
    · subst h0
      rw [expandLoop]
      simp
    · rw [expandLoop, dif_neg h0, ih _ (popLow_lt h0), expandStep_testBit]
      obtain ⟨hl1, hl2, hl3⟩ := lsb_facts h0
      constructor
      · rintro ((h | h) | ⟨t, ht, hj⟩)
        · exact Or.inl h
        · exact Or.inr ⟨lowBitIdx rem, hl1, h⟩
        · rw [hl3] at ht
          simp only [Bool.and_eq_true] at ht
          exact Or.inr ⟨t, ht.1, hj⟩
      · rintro (h | ⟨t, ht, hj⟩)
        · exact Or.inl (Or.inl h)
        · by_cases hteq : t = lowBitIdx rem
          · subst hteq
            exact Or.inl (Or.inr hj)
          · have htgt : lowBitIdx rem < t := by
              rcases Nat.lt_trichotomy t (lowBitIdx rem) with hlt | heq | hgt
              · rw [hl2 t hlt] at ht; cases ht
              · exact absurd heq hteq
              · exact hgt
            refine Or.inr ⟨t, ?_, hj⟩
            rw [hl3]
            simp [ht, htgt]

theorem expand_reachable_testBit (r : Bitboard) (sm : StaticMap) (pass : Bitboard)
    (j : Nat) :
    Nat.testBit (expand_reachable r sm pass) j = true ↔
      Nat.testBit r j = true ∨ ∃ t, Nat.testBit r t = true ∧ Justified sm pass t j :=
  expandLoop_testBit sm pass r r j

/-- At a fixed point of the expansion, the reachable set is closed. -/
theorem expand_fixpoint_closed {r : Bitboard} {sm : StaticMap} {pass : Bitboard}
    (hfix : expand_reachable r sm pass = r) :
    ∀ t j, Nat.testBit r t = true → Justified sm pass t j →
      Nat.testBit r j = true := by
  intro t j ht hj
  rw [← hfix, expand_reachable_testBit]
  exact Or.inr ⟨t, ht, hj⟩

/-- The reachable set only grows. -/
theorem expand_grows {r : Bitboard} {sm : StaticMap} {pass : Bitboard} {j : Nat}
    (h : Nat.testBit r j = true) :
    Nat.testBit (expand_reachable r sm pass) j = true := by
  rw [expand_reachable_testBit]
  exact Or.inl h

/-- Bit-subset implies numeric order. -/
theorem le_of_bits_subset {a b : Nat}
    (h : ∀ j, Nat.testBit a j = true → Nat.testBit b j = true) : a ≤ b :=
  Nat.le_of_testBit h

/-- Strictly growing inside a bound consumes fuel. -/
theorem sub_lt_fuel {e r U fuel : Nat} (hlt : r < e) (hle : e ≤ U)
    (hfu : U - r < fuel + 1) : U - e < fuel := by omega

/-- Soundness of the fixed-point loop: every bit it adds is reachable. -/
theorem reachLoop_sound (sm : StaticMap) (pass : Bitboard) (start : Nat) :
    ∀ fuel r, (∀ j, Nat.testBit r j = true → Reaches sm pass start j) →
      ∀ j, Nat.testBit (reachLoop sm pass fuel r) j = true →
        Reaches sm pass start j := by
  intro fuel
  induction fuel with
  | zero => intro r hr j hj; exact hr j hj
  | succ fuel ih =>
    intro r hr j hj
    rw [reachLoop] at hj
    split at hj
    · exact hr j hj
    · refine ih _ ?_ j hj
      intro k hk
      rw [expand_reachable_testBit] at hk
      rcases hk with hk | ⟨t, ht, hjk⟩
      · exact hr k hk
      · exact reaches_of_justified (hr t ht) hjk

/-- The loop only grows its argument. -/
theorem reachLoop_grows (sm : StaticMap) (pass : Bitboard) :
    ∀ fuel r j, Nat.testBit r j = true →
      Nat.testBit (reachLoop sm pass fuel r) j = true := by
  intro fuel
  induction fuel with
  | zero => intro r j h; exact h
  | succ fuel ih =>
    intro r j h
    rw [reachLoop]
    split
    · exact h
    · exact ih _ j (expand_grows h)

/-- With enough fuel the loop reaches a fixed point of the expansion. -/
theorem reachLoop_fixpoint (sm : StaticMap) (pass : Bitboard) (U : Nat)
    (hpass : ∀ j, Nat.testBit pass j = true → Nat.testBit U j = true) :
    ∀ (fuel : Nat) (r : Nat),
      (∀ j, Nat.testBit r j = true → Nat.testBit U j = true) →
      U - r < fuel →
      expand_reachable (reachLoop sm pass fuel r) sm pass =
        reachLoop sm pass fuel r := by
  intro fuel
  induction fuel with
  | zero => intro r _ hfu; omega
  | succ fuel ih =>
    intro r hrU hfu
    rw [reachLoop]
    split
    next hfix => exact hfix
    next hfix =>
      have hsub : ∀ j, Nat.testBit (expand_reachable r sm pass) j = true →
          Nat.testBit U j = true := by
        intro j hj
        rw [expand_reachable_testBit] at hj
        rcases hj with hj | ⟨t, _, ⟨d, _, hp, rfl⟩⟩
        · exact hrU j hj
        · exact hpass _ hp
      have hlt : r < expand_reachable r sm pass :=
        lt_of_le_of_ne (le_of_bits_subset (fun j => expand_grows)) (Ne.symm hfix)
      have hle : expand_reachable r sm pass ≤ U := le_of_bits_subset hsub
      exact ih _ hsub (sub_lt_fuel hlt hle hfu)

/-- Full characterisation of `compute_reachability`: its bits are exactly
the tiles reachable from the player's tile through passable neighbors. -/
theorem compute_reachability_testBit (sm : StaticMap) (player_index : TileIndex)
    (box_bitboard : Bitboard) (j : Nat) :
    Nat.testBit (compute_reachability sm player_index box_bitboard) j = true ↔
      Reaches sm (andNot sm.floorMask box_bitboard) player_index.toNat j := by
  have hstartbit : Nat.testBit (1 <<< player_index.toNat) player_index.toNat = true := by
    rw [testBit_one_shift]; simp
  constructor
  · intro h
    refine reachLoop_sound sm _ player_index.toNat _ _ ?_ j h
    intro k hk
    rw [testBit_one_shift] at hk
    have : player_index.toNat = k := by simpa using hk
    rw [← this]
    exact Reaches.refl
  · intro h
    have hfix := reachLoop_fixpoint sm (andNot sm.floorMask box_bitboard)
      (1 <<< player_index.toNat ||| andNot sm.floorMask box_bitboard)
      (fun k hk => by rw [Nat.testBit_or]; simp [hk])
      (reachFuel (1 <<< player_index.toNat) (andNot sm.floorMask box_bitboard))
      (1 <<< player_index.toNat)
      (fun k hk => by rw [Nat.testBit_or]; simp [hk])
      (Nat.lt_succ_of_le (Nat.sub_le _ _))
    have hstart : Nat.testBit (compute_reachability sm player_index box_bitboard)
        player_index.toNat = true :=
      reachLoop_grows sm _ _ _ _ hstartbit
    exact reaches_in_closed hstart (expand_fixpoint_closed hfix) j h

/-! ### The frontier-based flood fill (`compute_reachability_fast`) -/

/-- One direction of the BFS body: the first component after the step. -/
theorem fastDirStep_fst (sm : StaticMap) (pass : Bitboard) (t : Nat)
    (acc : Bitboard × Bitboard) (d : Direction) (j : Nat) :
    Nat.testBit (fastDirStep sm pass t acc d).1 j = true ↔
      Nat.testBit acc.1 j = true ∨
        (getNeighbor sm (t : Int) d ≠ -1 ∧
         Nat.testBit pass (getNeighbor sm (t : Int) d).toNat = true ∧
         j = (getNeighbor sm (t : Int) d).toNat) := by
  show Nat.testBit ((if getNeighbor sm (t : Int) d = -1 then acc
      else if pass &&& 1 <<< (getNeighbor sm (t : Int) d).toNat ≠ 0 ∧
          acc.1 &&& 1 <<< (getNeighbor sm (t : Int) d).toNat = 0 then
        (acc.1 ||| 1 <<< (getNeighbor sm (t : Int) d).toNat,
         acc.2 ||| 1 <<< (getNeighbor sm (t : Int) d).toNat)
      else acc).1) j = true ↔ _
  split
  next hne => simp [hne]
  next hne =>
    split
    next hcond =>
      obtain ⟨hp, _⟩ := hcond
      have hp2 := (and_shift_ne_zero _ _).mp hp
      show Nat.testBit (acc.1 ||| _) j = true ↔ _
      rw [Nat.testBit_or, testBit_one_shift]
      simp only [Bool.or_eq_true, decide_eq_true_eq]
      constructor
      · rintro (h | h)
        · exact Or.inl h
        · exact Or.inr ⟨hne, hp2, h.symm⟩
      · rintro (h | ⟨_, _, rfl⟩)
        · exact Or.inl h
        · exact Or.inr rfl
    next hcond =>
      rw [not_and_or] at hcond
      constructor
      · exact Or.inl
      · rintro (h | ⟨_, hp, rfl⟩)
        · exact h
        · rcases hcond with hnp | hnr
          · exact absurd ((and_shift_ne_zero _ _).mpr hp) hnp
          · exact (and_shift_ne_zero _ _).mp hnr

/-- One direction of the BFS body: the second component after the step. -/
theorem fastDirStep_snd (sm : StaticMap) (pass : Bitboard) (t : Nat)
    (acc : Bitboard × Bitboard) (d : Direction) (j : Nat) :
    Nat.testBit (fastDirStep sm pass t acc d).2 j = true ↔
      Nat.testBit acc.2 j = true ∨
        (getNeighbor sm (t : Int) d ≠ -1 ∧
         Nat.testBit pass (getNeighbor sm (t : Int) d).toNat = true ∧
         j = (getNeighbor sm (t : Int) d).toNat ∧
         Nat.testBit acc.1 (getNeighbor sm (t : Int) d).toNat = false) := by
  show Nat.testBit ((if getNeighbor sm (t : Int) d = -1 then acc
      else if pass &&& 1 <<< (getNeighbor sm (t : Int) d).toNat ≠ 0 ∧
          acc.1 &&& 1 <<< (getNeighbor sm (t : Int) d).toNat = 0 then
        (acc.1 ||| 1 <<< (getNeighbor sm (t : Int) d).toNat,
         acc.2 ||| 1 <<< (getNeighbor sm (t : Int) d).toNat)
      else acc).2) j = true ↔ _
  split
  next hne => simp [hne]
  next hne =>
    split
    next hcond =>
      obtain ⟨hp, hnr⟩ := hcond
      have hp2 := (and_shift_ne_zero _ _).mp hp
      have hr2 : Nat.testBit acc.1 (getNeighbor sm (t : Int) d).toNat = false :=
        (and_shift_eq_zero _ _).mp hnr
      show Nat.testBit (acc.2 ||| _) j = true ↔ _
      rw [Nat.testBit_or, testBit_one_shift]
      simp only [Bool.or_eq_true, decide_eq_true_eq]
      constructor
      · rintro (h | h)
        · exact Or.inl h
        · exact Or.inr ⟨hne, hp2, h.symm, hr2⟩
      · rintro (h | ⟨_, _, rfl, _⟩)
        · exact Or.inl h
        · exact Or.inr rfl
    next hcond =>
      rw [not_and_or] at hcond
      constructor
      · exact Or.inl
      · rintro (h | ⟨_, hp, rfl, hr⟩)
        · exact h
        · rcases hcond with hnp | hnr
          · exact absurd ((and_shift_ne_zero _ _).mpr hp) hnp
          · have hc := (and_shift_ne_zero _ _).mp hnr
            rw [hr] at hc
            cases hc

/-- The condition under which direction `d` contributes tile `j` from `t`. -/
def DirAdds (sm : StaticMap) (pass : Bitboard) (t : Nat) (d : Direction) (j : Nat) :
    Prop :=
  getNeighbor sm (t : Int) d ≠ -1 ∧
    Nat.testBit pass (getNeighbor sm (t : Int) d).toNat = true ∧
    j = (getNeighbor sm (t : Int) d).toNat

theorem fastFold_fst (sm : StaticMap) (pass : Bitboard) (t : Nat) :
    ∀ (ds : List Direction) (acc : Bitboard × Bitboard) (j : Nat),
      Nat.testBit (ds.foldl (fastDirStep sm pass t) acc).1 j = true ↔
        Nat.testBit acc.1 j = true ∨ ∃ d ∈ ds, DirAdds sm pass t d j := by
  intro ds
  induction ds with
  | nil => simp
  | cons d0 ds ih =>
    intro acc j
    show Nat.testBit (ds.foldl _ (fastDirStep sm pass t acc d0)).1 j = true ↔ _
    rw [ih, fastDirStep_fst]
    simp only [List.mem_cons]
    constructor
    · rintro ((h | h) | ⟨d, hd, hadds⟩)
      · exact Or.inl h
      · exact Or.inr ⟨d0, Or.inl rfl, h⟩
      · exact Or.inr ⟨d, Or.inr hd, hadds⟩
    · rintro (h | ⟨d, (rfl | hd), hadds⟩)
      · exact Or.inl (Or.inl h)
      · exact Or.inl (Or.inr hadds)
      · exact Or.inr ⟨d, hd, hadds⟩

theorem fastFold_fst_mono (sm : StaticMap) (pass : Bitboard) (t : Nat)
    (ds : List Direction) (acc : Bitboard × Bitboard) (j : Nat)
    (h : Nat.testBit acc.1 j = true) :
    Nat.testBit (ds.foldl (fastDirStep sm pass t) acc).1 j = true := by
  rw [fastFold_fst]
  exact Or.inl h

theorem fastFold_snd_mono (sm : StaticMap) (pass : Bitboard) (t : Nat) :
    ∀ (ds : List Direction) (acc : Bitboard × Bitboard) (j : Nat),
      Nat.testBit acc.2 j = true →
      Nat.testBit (ds.foldl (fastDirStep sm pass t) acc).2 j = true := by
  intro ds
  induction ds with
  | nil => intro acc j h; exact h
  | cons d0 ds ih =>
    intro acc j h
    refine ih _ j ?_
    rw [fastDirStep_snd]
    exact Or.inl h

theorem fastFold_snd_sound (sm : StaticMap) (pass : Bitboard) (t : Nat) :
    ∀ (ds : List Direction) (acc : Bitboard × Bitboard) (j : Nat),
      Nat.testBit (ds.foldl (fastDirStep sm pass t) acc).2 j = true →
        Nat.testBit acc.2 j = true ∨
          ((∃ d ∈ ds, DirAdds sm pass t d j) ∧ Nat.testBit acc.1 j = false) := by
  intro ds
  induction ds with
  | nil => intro acc j h; exact Or.inl h
  | cons d0 ds ih =>
    intro acc j h
    rcases ih _ j h with h2 | ⟨⟨d, hd, hadds⟩, hnr⟩
    · rw [fastDirStep_snd] at h2
      rcases h2 with h2 | ⟨hne, hp, rfl, hnr⟩
      · exact Or.inl h2
      · exact Or.inr ⟨⟨d0, List.mem_cons_self d0 ds, ⟨hne, hp, rfl⟩⟩, hnr⟩
    · have hnr0 : Nat.testBit acc.1 j = false := by
        rw [← Bool.not_eq_true] at hnr ⊢
        intro hc
        exact hnr ((fastDirStep_fst sm pass t acc d0 j).mpr (Or.inl hc))
      exact Or.inr ⟨⟨d, List.mem_cons_of_mem d0 hd, hadds⟩, hnr0⟩

theorem fastFold_new_in_snd (sm : StaticMap) (pass : Bitboard) (t : Nat) :
    ∀ (ds : List Direction) (acc : Bitboard × Bitboard) (j : Nat),
      Nat.testBit (ds.foldl (fastDirStep sm pass t) acc).1 j = true →
        Nat.testBit acc.1 j = true ∨
          Nat.testBit (ds.foldl (fastDirStep sm pass t) acc).2 j = true := by
  intro ds
  induction ds with
  | nil => intro acc j h; exact Or.inl h
  | cons d0 ds ih =>
    intro acc j h
    rcases ih _ j h with h2 | h2
    · rw [fastDirStep_fst] at h2
      rcases h2 with h2 | ⟨hne, hp, rfl⟩
      · exact Or.inl h2
      · cases hr : Nat.testBit acc.1 (getNeighbor sm (t : Int) d0).toNat
        · refine Or.inr (fastFold_snd_mono sm pass t ds _ _ ?_)
          rw [fastDirStep_snd]
          exact Or.inr ⟨hne, hp, rfl, hr⟩
        · exact Or.inl rfl
    · exact Or.inr h2

theorem justified_iff_dirList (sm : StaticMap) (pass : Bitboard) (t j : Nat) :
    (∃ d ∈ dirList, DirAdds sm pass t d j) ↔ Justified sm pass t j := by
  constructor
  · rintro ⟨d, _, h1, h2, h3⟩
    exact ⟨d, h1, h2, h3⟩
  · rintro ⟨d, h1, h2, h3⟩
    exact ⟨d, mem_dirList d, h1, h2, h3⟩

theorem fastInner_fst (sm : StaticMap) (pass : Bitboard) :
    ∀ rem (acc : Bitboard × Bitboard) (j : Nat),
      Nat.testBit (fastInner sm pass rem acc).1 j = true ↔
        Nat.testBit acc.1 j = true ∨
          ∃ t, Nat.testBit rem t = true ∧ Justified sm pass t j := by
  intro rem
  induction rem using Nat.strong_induction_on with
  | _ rem ih =>
    intro acc j
    by_cases h0 : rem = 0
    · subst h0
      rw [fastInner]
      simp
    · rw [fastInner, dif_neg h0, ih _ (popLow_lt h0)]
      rw [fastFold_fst]
      obtain ⟨hl1, hl2, hl3⟩ := lsb_facts h0
      constructor
      · rintro ((h | h) | ⟨t, ht, hj⟩)
        · exact Or.inl h
        · exact Or.inr ⟨lowBitIdx rem, hl1, (justified_iff_dirList sm pass _ j).mp h⟩
        · rw [hl3] at ht
          simp only [Bool.and_eq_true] at ht
          exact Or.inr ⟨t, ht.1, hj⟩
      · rintro (h | ⟨t, ht, hj⟩)
        · exact Or.inl (Or.inl h)
        · by_cases hteq : t = lowBitIdx rem
          · subst hteq
            exact Or.inl (Or.inr ((justified_iff_dirList sm pass _ j).mpr hj))
          · have htgt : lowBitIdx rem < t := by
              rcases Nat.lt_trichotomy t (lowBitIdx rem) with hlt | heq | hgt
              · rw [hl2 t hlt] at ht; cases ht
              · exact absurd heq hteq
              · exact hgt
            refine Or.inr ⟨t, ?_, hj⟩
            rw [hl3]
            simp [ht, htgt]

theorem fastInner_fst_mono (sm : StaticMap) (pass : Bitboard) (rem : Bitboard)
    (acc : Bitboard × Bitboard) (j : Nat) (h : Nat.testBit acc.1 j = true) :
    Nat.testBit (fastInner sm pass rem acc).1 j = true := by
  rw [fastInner_fst]
  exact Or.inl h

theorem fastInner_snd_mono (sm : StaticMap) (pass : Bitboard) :
    ∀ rem (acc : Bitboard × Bitboard) (j : Nat),
      Nat.testBit acc.2 j = true →
      Nat.testBit (fastInner sm pass rem acc).2 j = true := by
  intro rem
  induction rem using Nat.strong_induction_on with
  | _ rem ih =>
    intro acc j h
    by_cases h0 : rem = 0
    · subst h0
      rw [fastInner]
      simpa using h
    · rw [fastInner, dif_neg h0]
      exact ih _ (popLow_lt h0) _ j (fastFold_snd_mono sm pass _ dirList acc j h)

theorem fastInner_snd_sound (sm : StaticMap) (pass : Bitboard) :
    ∀ rem (acc : Bitboard × Bitboard) (j : Nat),
      Nat.testBit (fastInner sm pass rem acc).2 j = true →
        Nat.testBit acc.2 j = true ∨
          ((∃ t, Nat.testBit rem t = true ∧ Justified sm pass t j) ∧
            Nat.testBit acc.1 j = false) := by
  intro rem
  induction rem using Nat.strong_induction_on with
  | _ rem ih =>
    intro acc j h
    by_cases h0 : rem = 0
    · subst h0
      rw [fastInner] at h
      simp at h
      exact Or.inl h
    · rw [fastInner, dif_neg h0] at h
      obtain ⟨hl1, hl2, hl3⟩ := lsb_facts h0
      rcases ih _ (popLow_lt h0) _ j h with h2 | ⟨⟨t, ht, hj⟩, hnr⟩
      · rcases fastFold_snd_sound sm pass _ dirList acc j h2 with h3 | ⟨hadds, hnr⟩
        · exact Or.inl h3
        · exact Or.inr ⟨⟨lowBitIdx rem, hl1,
            (justified_iff_dirList sm pass _ j).mp hadds⟩, hnr⟩
      · have hnr0 : Nat.testBit acc.1 j = false := by
          rw [← Bool.not_eq_true] at hnr ⊢
          intro hc
          exact hnr (fastFold_fst_mono sm pass _ dirList acc j hc)
        rw [hl3] at ht
        simp only [Bool.and_eq_true] at ht
        exact Or.inr ⟨⟨t, ht.1, hj⟩, hnr0⟩

theorem fastInner_new_in_snd (sm : StaticMap) (pass : Bitboard) :
    ∀ rem (acc : Bitboard × Bitboard) (j : Nat),
      Nat.testBit (fastInner sm pass rem acc).1 j = true →
        Nat.testBit acc.1 j = true ∨
          Nat.testBit (fastInner sm pass rem acc).2 j = true := by
  intro rem
  induction rem using Nat.strong_induction_on with
  | _ rem ih =>
    intro acc j h
    by_cases h0 : rem = 0
    · subst h0
      rw [fastInner] at h ⊢
      simp at h
      exact Or.inl h
    · rw [fastInner, dif_neg h0] at h ⊢
      rcases ih _ (popLow_lt h0) _ j h with h2 | h2
      · rcases fastFold_new_in_snd sm pass _ dirList acc j h2 with h3 | h3
        · exact Or.inl h3
        · exact Or.inr (fastInner_snd_mono sm pass _ _ j h3)
      · exact Or.inr h2

theorem fastLoop_frontier_zero (sm : StaticMap) (pass : Bitboard) (fuel : Nat)
    (R : Bitboard) : fastLoop sm pass fuel R 0 = R := by
  cases fuel <;> rfl

/-- The invariant-carrying analysis of the outer BFS loop: with enough
fuel the result is sound, contains the start tile, and is closed. -/
theorem fastLoop_props (sm : StaticMap) (pass : Bitboard) (start : Nat) (U : Nat)
    (hpass : ∀ j, Nat.testBit pass j = true → Nat.testBit U j = true) :
    ∀ (fuel : Nat) (R F : Nat),
      (∀ j, Nat.testBit R j = true → Reaches sm pass start j) →
      (∀ j, Nat.testBit F j = true → Nat.testBit R j = true) →
      Nat.testBit R start = true →
      (∀ t j, Nat.testBit R t = true → Nat.testBit F t = false →
        Justified sm pass t j → Nat.testBit R j = true) →
      (∀ j, Nat.testBit R j = true → Nat.testBit U j = true) →
      U - R < fuel + 1 →
      (∀ j, Nat.testBit (fastLoop sm pass fuel R F) j = true →
        Reaches sm pass start j) ∧
      Nat.testBit (fastLoop sm pass fuel R F) start = true ∧
      (∀ t j, Nat.testBit (fastLoop sm pass fuel R F) t = true →
        Justified sm pass t j → Nat.testBit (fastLoop sm pass fuel R F) j = true) := by
  intro fuel
  induction fuel with
  | zero =>
    intro R F hsound hFR hstart hclosed hRU hfu
    rcases F with _ | g
    · rw [fastLoop_frontier_zero]
      exact ⟨hsound, hstart, fun t j ht hj => hclosed t j ht (by simp) hj⟩
    · have hRle : R ≤ U := le_of_bits_subset hRU
      have hequ : R = U := by omega
      show (∀ j, Nat.testBit R j = true → _) ∧ Nat.testBit R start = true ∧ _
      refine ⟨hsound, hstart, ?_⟩
      intro t j _ hj
      obtain ⟨d, _, hp, rfl⟩ := hj
      rw [hequ]
      exact hpass _ hp
  | succ fuel ih =>
    intro R F hsound hFR hstart hclosed hRU hfu
    rcases F with _ | g
    · rw [fastLoop_frontier_zero]
      exact ⟨hsound, hstart, fun t j ht hj => hclosed t j ht (by simp) hj⟩
    · rw [show fastLoop sm pass (fuel + 1) R (g + 1) =
        fastLoop sm pass fuel (fastInner sm pass (g + 1) (R, 0)).1
          (fastInner sm pass (g + 1) (R, 0)).2 from rfl]
      have hR2char : ∀ j, Nat.testBit (fastInner sm pass (g + 1) (R, 0)).1 j = true ↔
          Nat.testBit R j = true ∨
            ∃ t, Nat.testBit (g + 1) t = true ∧ Justified sm pass t j :=
        fun j => fastInner_fst sm pass (g + 1) (R, 0) j
      have hsound2 : ∀ j, Nat.testBit (fastInner sm pass (g + 1) (R, 0)).1 j = true →
          Reaches sm pass start j := by
        intro j hj
        rcases (hR2char j).mp hj with hj | ⟨t, ht, hjt⟩
        · exact hsound j hj
        · exact reaches_of_justified (hsound t (hFR t ht)) hjt
      have hFR2 : ∀ j, Nat.testBit (fastInner sm pass (g + 1) (R, 0)).2 j = true →
          Nat.testBit (fastInner sm pass (g + 1) (R, 0)).1 j = true := by
        intro j hj
        rcases fastInner_snd_sound sm pass (g + 1) (R, 0) j hj with h0 | ⟨hJ, _⟩
        · simp at h0
        · exact (hR2char j).mpr (Or.inr hJ)
      have hstart2 : Nat.testBit (fastInner sm pass (g + 1) (R, 0)).1 start = true :=
        (hR2char start).mpr (Or.inl hstart)
      have hclosed2 : ∀ t j,
          Nat.testBit (fastInner sm pass (g + 1) (R, 0)).1 t = true →
          Nat.testBit (fastInner sm pass (g + 1) (R, 0)).2 t = false →
          Justified sm pass t j →
          Nat.testBit (fastInner sm pass (g + 1) (R, 0)).1 j = true := by
        intro t j ht hNFt hj
        rcases fastInner_new_in_snd sm pass (g + 1) (R, 0) t ht with hRt | hNF2
        · cases hFt : Nat.testBit (g + 1) t
          · exact (hR2char j).mpr (Or.inl (hclosed t j hRt hFt hj))
          · exact (hR2char j).mpr (Or.inr ⟨t, hFt, hj⟩)
        · rw [hNFt] at hNF2
          cases hNF2
      have hR2U : ∀ j, Nat.testBit (fastInner sm pass (g + 1) (R, 0)).1 j = true →
          Nat.testBit U j = true := by
        intro j hj
        rcases (hR2char j).mp hj with hj | ⟨t, _, ⟨d, _, hp, rfl⟩⟩
        · exact hRU j hj
        · exact hpass _ hp
      by_cases hNF0 : (fastInner sm pass (g + 1) (R, 0)).2 = 0
      · rw [hNF0, fastLoop_frontier_zero]
        exact ⟨hsound2, hstart2, fun t j ht hj => hclosed2 t j ht (by simp [hNF0]) hj⟩
      · obtain ⟨jn, hjn⟩ := Nat.ne_zero_implies_bit_true hNF0
        have hjnR2 : Nat.testBit (fastInner sm pass (g + 1) (R, 0)).1 jn = true :=
          hFR2 jn hjn
        have hjnR : Nat.testBit R jn = false := by
          rcases fastInner_snd_sound sm pass (g + 1) (R, 0) jn hjn with h0 | ⟨_, hnr⟩
          · simp at h0
          · exact hnr
        have hsubset : ∀ j, Nat.testBit R j = true →
            Nat.testBit (fastInner sm pass (g + 1) (R, 0)).1 j = true :=
          fun j hj => (hR2char j).mpr (Or.inl hj)
        have hlt : R < (fastInner sm pass (g + 1) (R, 0)).1 := by
          refine lt_of_le_of_ne (le_of_bits_subset hsubset) ?_
          intro he
          rw [← he] at hjnR2
          rw [hjnR] at hjnR2
          cases hjnR2
        have hle2 : (fastInner sm pass (g + 1) (R, 0)).1 ≤ U :=
          le_of_bits_subset hR2U
        exact ih _ _ hsound2 hFR2 hstart2 hclosed2 hR2U (sub_lt_fuel hlt hle2 hfu)

/-! ### Claim C10: both flood fills compute the reachability closure -/

/-- C10: `compute_reachability` and `compute_reachability_fast` return the
same bitboard, whose set bits are exactly the least set of tiles that
contains the player's tile and is closed under adding an existing neighbor
that is a floor tile not occupied by a box (`Reaches`, with the passable
mask `floor_mask & ~box_bitboard`). -/
theorem reachability_equiv (sm : StaticMap) (player_index : TileIndex)
    (box_bitboard : Bitboard) :
    compute_reachability_fast sm player_index box_bitboard =
      compute_reachability sm player_index box_bitboard ∧
    (∀ j, Nat.testBit (compute_reachability sm player_index box_bitboard) j = true ↔
      Reaches sm (andNot sm.floorMask box_bitboard) player_index.toNat j) ∧
    (∀ j, Nat.testBit (compute_reachability_fast sm player_index box_bitboard) j =
        true ↔
      Reaches sm (andNot sm.floorMask box_bitboard) player_index.toNat j) := by
  have hstart0 : Nat.testBit (1 <<< player_index.toNat) player_index.toNat = true := by
    rw [testBit_one_shift]; simp
  have honly : ∀ j, Nat.testBit (1 <<< player_index.toNat) j = true →
      j = player_index.toNat := by
    intro j hj
    rw [testBit_one_shift] at hj
    exact (of_decide_eq_true hj).symm
  have hfl := fastLoop_props sm (andNot sm.floorMask box_bitboard)
    player_index.toNat
    ((1 <<< player_index.toNat) ||| andNot sm.floorMask box_bitboard)
    (fun k hk => by rw [Nat.testBit_or]; simp [hk])
    (reachFuel (1 <<< player_index.toNat) (andNot sm.floorMask box_bitboard))
    (1 <<< player_index.toNat) (1 <<< player_index.toNat)
    (fun j hj => by rw [honly j hj]; exact Reaches.refl)
    (fun j hj => hj)
    hstart0
    (fun t j ht hFt _ => by rw [honly t ht] at hFt; rw [hstart0] at hFt; cases hFt)
    (fun k hk => by rw [Nat.testBit_or]; simp [hk])
    (Nat.lt_succ_of_le (Nat.le_succ_of_le (Nat.sub_le _ _)))
  have hfast : ∀ j,
      Nat.testBit (compute_reachability_fast sm player_index box_bitboard) j = true ↔
        Reaches sm (andNot sm.floorMask box_bitboard) player_index.toNat j := by
    intro j
    constructor
    · intro h
      exact hfl.1 j h
    · intro h
      exact reaches_in_closed hfl.2.1 hfl.2.2 j h
  have hslow := fun j => compute_reachability_testBit sm player_index box_bitboard j
  refine ⟨?_, hslow, hfast⟩
  apply Nat.eq_of_testBit_eq
  intro j
  apply bool_eq_of_iff
  rw [hfast j, hslow j]

/-! ### Claim C4: push enumeration -/

theorem beq_zero_iff (a : Bitboard) (k : Nat) :
    ((a &&& (1 <<< k) == 0) = true) ↔ Nat.testBit a k = false := by
  rw [beq_iff_eq, and_shift_eq_zero]

/-- The per-direction test of `get_legal_pushes`, in the claim's terms. -/
theorem push_ok_iff (sm : StaticMap) (bb reach : Bitboard) (t : Nat)
    (d : Direction) :
    push_ok sm bb reach t d = true ↔
      (getNeighbor sm (t : Int) (opposite_direction d) ≠ -1 ∧
       Nat.testBit reach (getNeighbor sm (t : Int) (opposite_direction d)).toNat =
         true ∧
       getNeighbor sm (t : Int) d ≠ -1 ∧
       has_box bb (getNeighbor sm (t : Int) d) = false) := by
  show (if getNeighbor sm (t : Int) (opposite_direction d) = -1 then false
    else if reach &&& (1 <<< (getNeighbor sm (t : Int) (opposite_direction d)).toNat)
        == 0 then false
    else if getNeighbor sm (t : Int) d = -1 then false
    else bb &&& (1 <<< (getNeighbor sm (t : Int) d).toNat) == 0) = true ↔ _
  split
  next h1 => simp [h1]
  next h1 =>
    split
    next h2 =>
      rw [beq_zero_iff] at h2
      simp [h1, h2]
    next h2 =>
      have h2b : Nat.testBit reach
          (getNeighbor sm (t : Int) (opposite_direction d)).toNat = true := by
        cases hc : Nat.testBit reach
            (getNeighbor sm (t : Int) (opposite_direction d)).toNat
        · exact absurd ((beq_zero_iff _ _).mpr hc) h2
        · rfl
      split
      next h3 => simp [h1, h2b, h3]
      next h3 =>
        rw [beq_zero_iff, ← has_box_eq_testBit]
        simp [h1, h2b, h3]

theorem pushLoop_mem (sm : StaticMap) (bb reach : Bitboard) :
    ∀ rem (x : TileIndex × Direction),
      x ∈ pushLoop sm bb reach rem ↔
        ∃ t : Nat, Nat.testBit rem t = true ∧ x.1 = (t : Int) ∧
          push_ok sm bb reach t x.2 = true := by
  intro rem
  induction rem using Nat.strong_induction_on with
  | _ rem ih =>
    intro x
    by_cases h0 : rem = 0
    · subst h0
      rw [pushLoop]
      simp
    · rw [pushLoop, dif_neg h0]
      obtain ⟨hl1, hl2, hl3⟩ := lsb_facts h0
      rw [List.mem_append, ih _ (popLow_lt h0)]
      constructor
      · rintro (hblk | ⟨t, ht, hx1, hok⟩)
        · rw [List.mem_map] at hblk
          obtain ⟨d, hd, rfl⟩ := hblk
          rw [List.mem_filter] at hd
          exact ⟨lowBitIdx rem, hl1, rfl, hd.2⟩
        · rw [hl3] at ht
          simp only [Bool.and_eq_true] at ht
          exact ⟨t, ht.1, hx1, hok⟩
      · rintro ⟨t, ht, hx1, hok⟩
        by_cases hteq : t = lowBitIdx rem
        · subst hteq
          left
          rw [List.mem_map]
          refine ⟨x.2, ?_, ?_⟩
          · rw [List.mem_filter]
            exact ⟨mem_dirList x.2, hok⟩
          · rw [← hx1]
        · have htgt : lowBitIdx rem < t := by
            rcases Nat.lt_trichotomy t (lowBitIdx rem) with hlt | heq | hgt
            · rw [hl2 t hlt] at ht; cases ht
            · exact absurd heq hteq
            · exact hgt
          right
          refine ⟨t, ?_, hx1, hok⟩
          rw [hl3]
          simp [ht, htgt]

/-- The ordering of the claim: ascending box tile, then enum direction
order for equal boxes. -/
def pushOrder (x y : TileIndex × Direction) : Prop :=
  x.1 < y.1 ∨ (x.1 = y.1 ∧ dirVal x.2 < dirVal y.2)

theorem pushLoop_pairwise (sm : StaticMap) (bb reach : Bitboard) :
    ∀ rem, List.Pairwise pushOrder (pushLoop sm bb reach rem) := by
  intro rem
  induction rem using Nat.strong_induction_on with
  | _ rem ih =>
    by_cases h0 : rem = 0
    · subst h0
      rw [pushLoop]
      simp
    · rw [pushLoop, dif_neg h0]
      obtain ⟨hl1, hl2, hl3⟩ := lsb_facts h0
      rw [List.pairwise_append]
      refine ⟨?_, ih _ (popLow_lt h0), ?_⟩
      · apply List.Pairwise.map
        · intro a b hab
          exact Or.inr ⟨rfl, hab⟩
        · apply List.Pairwise.filter
          exact (by decide :
            List.Pairwise (fun a b : Direction => dirVal a < dirVal b) dirList)
      · intro x hx y hy
        rw [List.mem_map] at hx
        obtain ⟨d, _, rfl⟩ := hx
        rw [pushLoop_mem] at hy
        obtain ⟨t, ht, hy1, _⟩ := hy
        rw [hl3] at ht
        simp only [Bool.and_eq_true, decide_eq_true_eq] at ht
        left
        show ((lowBitIdx rem : Nat) : Int) < y.1
        rw [hy1]
        exact_mod_cast ht.2

/-- C4: `get_legal_pushes` returns exactly the pairs `(b, d)` where `b` is
an occupied box tile whose neighbor opposite `d` exists and lies in the
reachability set computed by `compute_reachability`, and whose neighbor in
direction `d` exists and holds no box; ordered by ascending box tile index
and, for equal boxes, by direction-enum order. -/
theorem get_legal_pushes_spec (sm : StaticMap) (player_index : TileIndex)
    (box_bitboard : Bitboard) :
    (∀ (b : TileIndex) (d : Direction),
      (b, d) ∈ get_legal_pushes sm player_index box_bitboard ↔
        ∃ t : Nat, b = (t : Int) ∧ Nat.testBit box_bitboard t = true ∧
          getNeighbor sm (t : Int) (opposite_direction d) ≠ -1 ∧
          Nat.testBit (compute_reachability sm player_index box_bitboard)
            (getNeighbor sm (t : Int) (opposite_direction d)).toNat = true ∧
          getNeighbor sm (t : Int) d ≠ -1 ∧
          has_box box_bitboard (getNeighbor sm (t : Int) d) = false) ∧
    List.Pairwise pushOrder (get_legal_pushes sm player_index box_bitboard) := by
  constructor
  · intro b d
    show (b, d) ∈ pushLoop sm box_bitboard
      (compute_reachability sm player_index box_bitboard) box_bitboard ↔ _
    rw [pushLoop_mem]
    constructor
    · rintro ⟨t, ht, hb, hok⟩
      rw [push_ok_iff] at hok
      exact ⟨t, hb, ht, hok.1, hok.2.1, hok.2.2.1, hok.2.2.2⟩
    · rintro ⟨t, hb, ht, h1, h2, h3, h4⟩
      exact ⟨t, ht, hb, (push_ok_iff sm box_bitboard _ t d).mpr ⟨h1, h2, h3, h4⟩⟩
  · exact pushLoop_pairwise sm box_bitboard _ box_bitboard

end Sokoban
